import Mathlib

/-!
Sorted hash table

A verification development for `0x1A-hash_tables/100-sorted_hash_table.c`: a chained
hash table whose entries are also threaded on a doubly linked list kept in ascending
key order.

Embedding:

* A C string is the list of its bytes before the terminating NUL (`CStr`); a byte of a
  string is therefore never zero (`Byte`).
* The entries live in a node store `mem`; a pointer to an entry is its index in the
  store and `none` is `NULL`.  `malloc` of a new entry extends the store by one cell.
* Every function returns an `Option`: `none` stands for a run without a result, either
  undefined behaviour (a dangling pointer or an out-of-bounds bucket access) or a loop
  that never ends.  Loops over the links take the number of cells of the store as fuel:
  a walk that is longer than that has met a cell twice and goes on for ever.
* `key_index` is not part of this file of the program; it is a parameter.
* The result of each allocation of a call is an argument of the call.
-/

namespace SortedHash

/-! ## Strings -/

/-- A byte of a C string: an `unsigned char` other than the terminator. -/
structure Byte where
  val : Nat
  pos : 0 < val
  lt : val < 256
deriving DecidableEq

/-- A C string, as the list of the bytes before its terminating NUL. -/
abbrev CStr := List Byte

/-- The byte of a character of a literal (`?` for a character that is no such byte). -/
def Byte.ofChar (c : Char) : Byte :=
  if h : 0 < c.toNat ∧ c.toNat < 256 then ⟨c.toNat, h.1, h.2⟩ else ⟨63, by decide, by decide⟩

/-- The C string of an ASCII literal. -/
def cstr (s : String) : CStr := s.toList.map Byte.ofChar

/-- The library function `strcmp`: the difference of the first two bytes that differ, as
unsigned bytes, the terminator being the byte 0; zero when the strings are equal. -/
def strcmp : CStr → CStr → Int
  | [], [] => 0
  | [], b :: _ => 0 - (b.val : Int)
  | a :: _, [] => (a.val : Int)
  | a :: as, b :: bs => if a.val = b.val then strcmp as bs else (a.val : Int) - (b.val : Int)

/-! ## Data model -/

/-- The entry record `shash_node_t`; the three links are pointers into the node store. -/
structure shash_node_t where
  key : CStr
  value : CStr
  next : Option Nat
  sprev : Option Nat
  snext : Option Nat
deriving DecidableEq

/-- The container `shash_table_t` together with the store `mem` of its entries. -/
structure shash_table_t where
  size : Nat
  array : List (Option Nat)
  shead : Option Nat
  stail : Option Nat
  mem : List shash_node_t
deriving DecidableEq

/-- A write through the pointer `p`: `none` when `p` is not a cell of the store. -/
def store (mem : List shash_node_t) (p : Nat) (f : shash_node_t → shash_node_t) :
    Option (List shash_node_t) :=
  match mem[p]? with
  | none => none
  | some n => some (mem.set p (f n))

/-! ## shash_table_create -/

/-- The function `shash_table_create`.  `ok_ht` and `ok_array` are the outcomes of the two
`malloc` calls.  The result `some none` is the return value `NULL`.  The request for the
array is `sizeof(shash_node_t *) * size` in `unsigned long` arithmetic (8 bytes a pointer,
64 bits); when it wraps around, the loop that clears the buckets writes past the block. -/
def shash_table_create (ok_ht ok_array : Bool) (size : Nat) : Option (Option shash_table_t) :=
  if ok_ht = false then some none
  else if ok_array = false then some none
  else if (8 * size) % 2 ^ 64 / 8 < size then none
  else some (some ⟨size, List.replicate size none, none, none, []⟩)

/-! ## shash_table_set -/

/-- Outcomes of the three allocations inside one call of `shash_table_set`, in program
order: `strdup(value)`, `malloc(sizeof(shash_node_t))`, `strdup(key)`. -/
structure set_allocs where
  value_dup : Bool
  node : Bool
  key_dup : Bool
deriving DecidableEq

/-- The search loop of `shash_table_set` (lines 59-69): the first entry from `k` along
`snext` whose key compares equal to `key`, or `NULL`. -/
def set_find (mem : List shash_node_t) (key : CStr) : Nat → Option Nat → Option (Option Nat)
  | _, none => some none
  | 0, some _ => none
  | fuel + 1, some k =>
    match mem[k]? with
    | none => none
    | some n => if strcmp n.key key = 0 then some (some k) else set_find mem key fuel n.snext

/-- The loop of lines 105-106: from `k`, move on while there is a next entry and its key
is smaller than `key`. -/
def set_walk (mem : List shash_node_t) (key : CStr) : Nat → Nat → Option Nat
  | 0, _ => none
  | fuel + 1, k =>
    match mem[k]? with
    | none => none
    | some n =>
      match n.snext with
      | none => some k
      | some s =>
        match mem[s]? with
        | none => none
        | some sn => if strcmp sn.key key < 0 then set_walk mem key fuel s else some k

/-- The function `shash_table_set`: the returned integer and the container after the call. -/
def shash_table_set (key_index : CStr → Nat → Nat) (a : set_allocs)
    (ht : Option shash_table_t) (key value : Option CStr) :
    Option (Int × Option shash_table_t) :=
  match ht, key, value with
  | some t, some k, some v =>
    if k = [] then some (0, ht)
    else if a.value_dup = false then some (0, ht)
    else
      let j := key_index k t.size
      match set_find t.mem k t.mem.length t.shead with
      | none => none
      | some (some p) =>
        match store t.mem p (fun n => { n with value := v }) with
        | none => none
        | some m => some (1, some { t with mem := m })
      | some none =>
        if a.node = false then some (0, ht)
        else if a.key_dup = false then some (0, ht)
        else
          match t.array[j]? with
          | none => none
          | some b =>
            let new := t.mem.length
            let m0 := t.mem ++ [⟨k, v, b, none, none⟩]
            let arr := t.array.set j (some new)
            match t.shead with
            | none =>
              some (1, some { t with array := arr, mem := m0, shead := some new, stail := some new })
            | some h =>
              match m0[h]? with
              | none => none
              | some hn =>
                if strcmp hn.key k > 0 then
                  match store m0 new (fun n => { n with sprev := none, snext := some h }) with
                  | none => none
                  | some m1 =>
                    match store m1 h (fun n => { n with sprev := some new }) with
                    | none => none
                    | some m2 => some (1, some { t with array := arr, mem := m2, shead := some new })
                else
                  match set_walk m0 k m0.length h with
                  | none => none
                  | some kk =>
                    match m0[kk]? with
                    | none => none
                    | some kn =>
                      match store m0 new (fun n => { n with sprev := some kk, snext := kn.snext }) with
                      | none => none
                      | some m1 =>
                        match kn.snext with
                        | none =>
                          match store m1 kk (fun n => { n with snext := some new }) with
                          | none => none
                          | some m3 =>
                            some (1, some { t with array := arr, mem := m3, stail := some new })
                        | some s =>
                          match store m1 s (fun n => { n with sprev := some new }) with
                          | none => none
                          | some m2 =>
                            match store m2 kk (fun n => { n with snext := some new }) with
                            | none => none
                            | some m3 => some (1, some { t with array := arr, mem := m3 })
  | _, _, _ => some (0, ht)

/-! ## shash_table_get -/

/-- The loop of `shash_table_get` (lines 138-140): the pointer `fac` when the loop ends. -/
def get_find (mem : List shash_node_t) (key : CStr) : Nat → Option Nat → Option (Option Nat)
  | _, none => some none
  | 0, some _ => none
  | fuel + 1, some fac =>
    match mem[fac]? with
    | none => none
    | some n => if strcmp n.key key ≠ 0 then get_find mem key fuel n.snext else some (some fac)

/-- The function `shash_table_get`; the result `some none` is the return value `NULL`. -/
def shash_table_get (key_index : CStr → Nat → Nat) (ht : Option shash_table_t)
    (key : Option CStr) : Option (Option CStr) :=
  match ht, key with
  | some t, some k =>
    if k = [] then some none
    else if key_index k t.size ≥ t.size then some none
    else
      match get_find t.mem k t.mem.length t.shead with
      | none => none
      | some none => some none
      | some (some fac) =>
        match t.mem[fac]? with
        | none => none
        | some n => some (some n.value)
  | _, _ => some none

/-! ## shash_table_print and shash_table_print_rev -/

/-- The loop shared by the two print functions, which differ in the link they follow
(`snext` or `sprev`): the text written for the entries from `fac` on. -/
def print_loop (link : shash_node_t → Option Nat) (mem : List shash_node_t) :
    Nat → Option Nat → Option CStr
  | _, none => some []
  | 0, some _ => none
  | fuel + 1, some fac =>
    match mem[fac]? with
    | none => none
    | some n =>
      match print_loop link mem fuel (link n) with
      | none => none
      | some rest =>
        some (cstr "\x27" ++ n.key ++ cstr "\x27: \x27" ++ n.value ++ cstr "\x27"
          ++ (if link n ≠ none then cstr ", " else []) ++ rest)

/-- The function `shash_table_print`: the text written to the standard output. -/
def shash_table_print (ht : Option shash_table_t) : Option CStr :=
  match ht with
  | none => some []
  | some t =>
    match print_loop shash_node_t.snext t.mem t.mem.length t.shead with
    | none => none
    | some body => some (cstr "\x7b" ++ body ++ cstr "\x7d\n")

/-- The function `shash_table_print_rev`: the text written to the standard output. -/
def shash_table_print_rev (ht : Option shash_table_t) : Option CStr :=
  match ht with
  | none => some []
  | some t =>
    match print_loop shash_node_t.sprev t.mem t.mem.length t.stail with
    | none => none
    | some body => some (cstr "\x7b" ++ body ++ cstr "\x7d\n")

/-! ## Observations of a container -/

/-- The pointers met from `p` along `link` until `NULL`. -/
def walk (link : shash_node_t → Option Nat) (mem : List shash_node_t) :
    Nat → Option Nat → Option (List Nat)
  | _, none => some []
  | 0, some _ => none
  | fuel + 1, some p =>
    match mem[p]? with
    | none => none
    | some n =>
      match walk link mem fuel (link n) with
      | none => none
      | some rest => some (p :: rest)

/-- The key and the value of the entry at `p`. -/
def entry_at (mem : List shash_node_t) (p : Nat) : CStr × CStr :=
  match mem[p]? with
  | none => ([], [])
  | some n => (n.key, n.value)

/-- The key of the entry at `p`. -/
def key_at (mem : List shash_node_t) (p : Nat) : CStr := (entry_at mem p).1

/-- The spine: the entries met from `shead` along `snext`. -/
def spine (t : shash_table_t) : Option (List Nat) :=
  walk shash_node_t.snext t.mem t.mem.length t.shead

/-- The spine read backwards: the entries met from `stail` along `sprev`. -/
def spine_rev (t : shash_table_t) : Option (List Nat) :=
  walk shash_node_t.sprev t.mem t.mem.length t.stail

/-- The bindings `(key, value)` met from `shead` along `snext`. -/
def entries (t : shash_table_t) : Option (List (CStr × CStr)) :=
  (spine t).map (List.map (entry_at t.mem))

/-- The keys met from `shead` along `snext`. -/
def keys (t : shash_table_t) : Option (List CStr) :=
  (spine t).map (List.map (key_at t.mem))

/-- The chains of the given bucket heads, each followed along `next`. -/
def chains (mem : List shash_node_t) : List (Option Nat) → Option (List (List Nat))
  | [] => some []
  | b :: bs =>
    match walk shash_node_t.next mem mem.length b, chains mem bs with
    | some c, some cs => some (c :: cs)
    | _, _ => none

/-- The bucket chains of a container, bucket by bucket. -/
def bucket_chains (t : shash_table_t) : Option (List (List Nat)) := chains t.mem t.array

/-- The keys of the entries of all bucket chains. -/
def bucket_keys (t : shash_table_t) : Option (List CStr) :=
  (bucket_chains t).map (fun cs => cs.flatten.map (key_at t.mem))

/-! ## Histories -/

/-- The successful calls `set(key, value)` made so far, the latest first: the call that
returned `r` is recorded when `r` is not zero. -/
def record (log : List (CStr × CStr)) (key value : Option CStr) (r : Int) :
    List (CStr × CStr) :=
  match key, value with
  | some k, some v => if r = 0 then log else (k, v) :: log
  | _, _ => log

/-- The value of the latest successful `set` on `k`, if there was one. -/
def last_set : List (CStr × CStr) → CStr → Option CStr
  | [], _ => none
  | (k', v) :: log, k => if k' = k then some v else last_set log k

/-- The container `t` is reached from `shash_table_create(size)` by calls of
`shash_table_set` (with any arguments and any outcome of the allocations), whose
successful ones are `log`. -/
inductive Reach (key_index : CStr → Nat → Nat) (size : Nat) :
    shash_table_t → List (CStr × CStr) → Prop
  | create {ok_ht ok_array : Bool} {t : shash_table_t} :
      shash_table_create ok_ht ok_array size = some (some t) → Reach key_index size t []
  | set {t t' : shash_table_t} {log : List (CStr × CStr)} {a : set_allocs}
      {key value : Option CStr} {r : Int} :
      Reach key_index size t log →
      shash_table_set key_index a (some t) key value = some (r, some t') →
      Reach key_index size t' (record log key value r)

/-! ## The print format of the specification -/

/-- One entry of the printed text: the key and the value in single quotes, with a
colon and a space between them. -/
def fmt_entry (e : CStr × CStr) : CStr :=
  cstr "\x27" ++ e.1 ++ cstr "\x27: \x27" ++ e.2 ++ cstr "\x27"

/-- The printed text of a sequence of bindings: the entries joined by a comma and a
space, between braces, followed by one newline. -/
def fmt_table (es : List (CStr × CStr)) : CStr :=
  cstr "\x7b" ++ List.intercalate (cstr ", ") (es.map fmt_entry) ++ cstr "\x7d\n"

/-! ## Running a list of insertions -/

/-- All allocations succeed. -/
def all_ok : set_allocs := ⟨true, true, true⟩

/-- The calls `set(k, v)` for the bindings of `bs`, from left to right, every allocation
succeeding; `none` as soon as a call has no result or leaves no container. -/
def set_all (key_index : CStr → Nat → Nat) : shash_table_t → List (CStr × CStr) →
    Option shash_table_t
  | t, [] => some t
  | t, (k, v) :: bs =>
    match shash_table_set key_index all_ok (some t) (some k) (some v) with
    | some (_, some t') => set_all key_index t' bs
    | _ => none

/-! ## Representation predicates -/

/-- Following `link` from `p` meets exactly the cells `l`, in this order, and then
the pointer `q`. -/
def Seg (link : shash_node_t → Option Nat) (mem : List shash_node_t) :
    Option Nat → List Nat → Option Nat → Prop
  | p, [], q => p = q
  | p, x :: xs, q => p = some x ∧ ∃ n, mem[x]? = some n ∧ Seg link mem (link n) xs q

/-- The invariant of the containers that can be reached: `l` is the spine, `cs` are the
bucket chains and `log` the successful calls of `shash_table_set` so far. -/
structure Inv (key_index : CStr → Nat → Nat) (t : shash_table_t) (l : List Nat)
    (cs : List (List Nat)) (log : List (CStr × CStr)) : Prop where
  array_len : t.array.length = t.size
  fwd : Seg shash_node_t.snext t.mem t.shead l none
  bwd : Seg shash_node_t.sprev t.mem t.stail l.reverse none
  sorted : l.Pairwise (fun x y => strcmp (key_at t.mem x) (key_at t.mem y) < 0)
  key_ne : ∀ x ∈ l, key_at t.mem x ≠ []
  chains_len : cs.length = t.array.length
  chain : ∀ (i : Nat) (b : Option Nat) (c : List Nat), t.array[i]? = some b → cs[i]? = some c →
    Seg shash_node_t.next t.mem b c none
  placed : ∀ (i : Nat) (c : List Nat), cs[i]? = some c → ∀ x ∈ c, key_index (key_at t.mem x) t.size = i
  perm : cs.flatten.Perm l
  model : ∀ k v, (k, v) ∈ l.map (entry_at t.mem) ↔ last_set log k = some v

/-- The container `t'` is `t` with a new entry `(k, v)`, allocated at the end of the store,
linked at the head of bucket `j` (whose former head is `b`) and between the parts `pre`
and `post` of the spine. -/
structure Spliced (t t' : shash_table_t) (pre post : List Nat) (k v : CStr) (j : Nat)
    (b : Option Nat) : Prop where
  size : t'.size = t.size
  array : t'.array = t.array.set j (some t.mem.length)
  new : t'.mem[t.mem.length]? = some ⟨k, v, b, pre.getLast?, post.head?⟩
  old : ∀ (x : Nat) (n : shash_node_t), t.mem[x]? = some n → t'.mem[x]? = some { n with
    sprev := if post.head? = some x then some t.mem.length else n.sprev,
    snext := if pre.getLast? = some x then some t.mem.length else n.snext }
  shead : t'.shead = if pre = [] then some t.mem.length else t.shead
  stail : t'.stail = if post = [] then some t.mem.length else t.stail

/-! ## Sample inputs -/

/-- A sample `key_index`: the sum of the bytes of the key modulo the bucket count. -/
def sum_index (k : CStr) (size : Nat) : Nat := (k.map Byte.val).sum % size

/-- A `key_index` that sends every key to bucket 0. -/
def zero_index (_ : CStr) (_ : Nat) : Nat := 0

/-- The container made by `shash_table_create(4)`. -/
def table4 : shash_table_t := ⟨4, List.replicate 4 none, none, none, []⟩

/-- The container `table4` after `set("k", "v")` under `sum_index`. -/
def table4_k : shash_table_t :=
  ⟨4, [none, none, none, some 0], some 0, some 0, [⟨cstr "k", cstr "v", none, none, none⟩]⟩

/-- The container made by `shash_table_create(1024)`. -/
def table1024 : shash_table_t := ⟨1024, List.replicate 1024 none, none, none, []⟩

/-- The bindings of the first scenario, in the order of their insertion. -/
def three_names : List (CStr × CStr) :=
  [(cstr "betty", cstr "Betty"), (cstr "alex", cstr "Alex"), (cstr "cezar", cstr "Cezar")]

/-- The container of the first scenario: `table1024` after the three insertions. -/
def table_names : shash_table_t := (set_all sum_index table1024 three_names).getD table1024

/-- The bindings of the second scenario, inserted in the order c, a, b. -/
def cab : List (CStr × CStr) := [(cstr "c", cstr "3"), (cstr "a", cstr "1"), (cstr "b", cstr "2")]

/-- The bindings of the second scenario, inserted in the order a, b, c. -/
def abc : List (CStr × CStr) := [(cstr "a", cstr "1"), (cstr "b", cstr "2"), (cstr "c", cstr "3")]

/-! ## shash_table_delete -/

/-- The loop of `shash_table_delete` (lines 204-212): the entries freed so far are
`freed`; the result is the list of all entries freed, in the order of the calls of `free`.
Reading the link of an entry that was freed has no result. -/
def delete_loop (mem : List shash_node_t) : Nat → Option Nat → List Nat → Option (List Nat)
  | _, none, freed => some freed
  | 0, some _, _ => none
  | fuel + 1, some fac, freed =>
    if fac ∈ freed then none
    else
      match mem[fac]? with
      | none => none
      | some n => delete_loop mem fuel n.snext (freed ++ [fac])

/-- The function `shash_table_delete`: the entries it frees, in the order in which it frees
them (it then frees the array and the container). -/
def shash_table_delete (ht : Option shash_table_t) : Option (List Nat) :=
  match ht with
  | none => some []
  | some t => delete_loop t.mem t.mem.length t.shead []

/-- The container of the second scenario with every key in bucket 0: `table4` after the
insertions c, a, b under `zero_index`. -/
def table_cab : shash_table_t := (set_all zero_index table4 cab).getD table4

/-- The container `table4_k` after `set("k", "w")`. -/
def table4_kw : shash_table_t :=
  ⟨4, [none, none, none, some 0], some 0, some 0, [⟨cstr "k", cstr "w", none, none, none⟩]⟩

/-- The container `table4_k` after `set("j", "u")` under `sum_index`. -/
def table4_kj : shash_table_t :=
  (set_all sum_index table4_k [(cstr "j", cstr "u")]).getD table4_k

/-! ## The lookup through the bucket index -/

/-- The search along a bucket chain: the first entry from `p` along `next` whose key
compares equal to `key`, or `NULL`. -/
def chain_find (mem : List shash_node_t) (key : CStr) : Nat → Option Nat → Option (Option Nat)
  | _, none => some none
  | 0, some _ => none
  | fuel + 1, some p =>
    match mem[p]? with
    | none => none
    | some n => if strcmp n.key key = 0 then some (some p) else chain_find mem key fuel n.next

/-- The lookup of the specification: search only the chain of bucket
`key_index(key, size)`, following `next`, for an entry whose key equals `key`, and give its
value, or `NULL` when there is none.  There is no result when the index is not the index
of a bucket. -/
def bucket_lookup (key_index : CStr → Nat → Nat) (t : shash_table_t) (key : CStr) :
    Option (Option CStr) :=
  match t.array[key_index key t.size]? with
  | none => none
  | some b =>
    match chain_find t.mem key t.mem.length b with
    | none => none
    | some none => some none
    | some (some p) =>
      match t.mem[p]? with
      | none => none
      | some n => some (some n.value)

/-! ## Facts about `strcmp` -/

theorem Byte.eq_of_val {a b : Byte} (h : a.val = b.val) : a = b := by
  cases a; cases b; simp_all

theorem strcmp_self (a : CStr) : strcmp a a = 0 := by
  induction a with
  | nil => rfl
  | cons x xs ih => simp [strcmp, ih]

theorem eq_of_strcmp_eq_zero : ∀ (a b : CStr), strcmp a b = 0 → a = b
  | [], [], _ => rfl
  | [], b :: _, h => by
    have := b.pos
    simp [strcmp] at h
    omega
  | a :: _, [], h => by
    have := a.pos
    simp [strcmp] at h
    omega
  | a :: as, b :: bs, h => by
    by_cases hab : a.val = b.val
    · simp [strcmp, hab] at h
      rw [Byte.eq_of_val hab, eq_of_strcmp_eq_zero as bs h]
    · simp only [strcmp, hab, if_false] at h
      omega

theorem strcmp_eq_zero_iff (a b : CStr) : strcmp a b = 0 ↔ a = b :=
  ⟨eq_of_strcmp_eq_zero a b, fun h => h ▸ strcmp_self a⟩

theorem strcmp_pos_iff : ∀ (a b : CStr), 0 < strcmp a b ↔ strcmp b a < 0
  | [], [] => by simp [strcmp]
  | [], b :: _ => by
    have := b.pos
    simp [strcmp]
  | a :: _, [] => by
    have := a.pos
    simp [strcmp]
  | a :: as, b :: bs => by
    by_cases hab : a.val = b.val
    · simp [strcmp, hab, strcmp_pos_iff as bs]
    · have hba : ¬ b.val = a.val := fun h => hab h.symm
      simp [strcmp, hab, hba]

theorem strcmp_trans (a b c : CStr) (h1 : strcmp a b < 0) (h2 : strcmp b c < 0) :
    strcmp a c < 0 := by
  induction a generalizing b c with
  | nil =>
    cases b with
    | nil => simp [strcmp] at h1
    | cons y ys =>
      cases c with
      | nil =>
        have := y.pos
        simp only [strcmp] at h2
        omega
      | cons z zs =>
        have := z.pos
        simp only [strcmp]
        omega
  | cons x xs ih =>
    cases b with
    | nil =>
      have := x.pos
      simp only [strcmp] at h1
      omega
    | cons y ys =>
      cases c with
      | nil =>
        have := y.pos
        simp only [strcmp] at h2
        omega
      | cons z zs =>
        simp only [strcmp] at h1 h2 ⊢
        by_cases hxy : x.val = y.val
        · by_cases hyz : y.val = z.val
          · rw [if_pos hxy] at h1
            rw [if_pos hyz] at h2
            rw [if_pos (hxy.trans hyz)]
            exact ih ys zs h1 h2
          · rw [if_neg hyz] at h2
            rw [if_neg (by omega)]
            omega
        · rw [if_neg hxy] at h1
          by_cases hyz : y.val = z.val
          · rw [if_neg (by omega)]
            omega
          · rw [if_neg hyz] at h2
            rw [if_neg (by omega)]
            omega

theorem strcmp_lt_iff_lex : ∀ (a b : CStr),
    strcmp a b < 0 ↔ List.Lex (fun x y : Nat => x < y) (a.map Byte.val) (b.map Byte.val)
  | [], [] => by
    simp [strcmp]
  | [], b :: _ => by
    have := b.pos
    simp only [strcmp, List.map_nil, List.map_cons]
    exact ⟨fun _ => List.Lex.nil, fun _ => by omega⟩
  | a :: _, [] => by
    have := a.pos
    simp only [strcmp, List.map_nil, List.map_cons]
    constructor
    · intro h
      omega
    · intro h
      cases h
  | a :: as, b :: bs => by
    by_cases hab : a.val = b.val
    · simp only [strcmp, hab, if_true, List.map_cons]
      rw [strcmp_lt_iff_lex as bs]
      constructor
      · intro h
        exact List.Lex.cons h
      · intro h
        cases h with
        | cons h => exact h
        | rel h => omega
    · simp only [strcmp, hab, if_false, List.map_cons]
      constructor
      · intro h
        exact List.Lex.rel (by omega)
      · generalize ha : a.val = x at *
        generalize hb : b.val = y at *
        intro h
        cases h with
        | cons h => exact absurd rfl hab
        | rel h => omega

/-! ## Linked segments -/

theorem seg_valid {link : shash_node_t → Option Nat} {mem : List shash_node_t} :
    ∀ {l : List Nat} {p q : Option Nat}, Seg link mem p l q →
      ∀ x ∈ l, ∃ n, mem[x]? = some n
  | [], _, _, _, x, hx => by simp at hx
  | y :: ys, p, q, h, x, hx => by
    obtain ⟨_, n, hn, hrest⟩ := h
    rcases List.mem_cons.mp hx with rfl | hx
    · exact ⟨n, hn⟩
    · exact seg_valid hrest x hx

theorem seg_lt {link : shash_node_t → Option Nat} {mem : List shash_node_t}
    {l : List Nat} {p q : Option Nat} (h : Seg link mem p l q) (x : Nat) (hx : x ∈ l) :
    x < mem.length := by
  obtain ⟨n, hn⟩ := seg_valid h x hx
  exact (List.getElem?_eq_some_iff.mp hn).1

theorem seg_head {link : shash_node_t → Option Nat} {mem : List shash_node_t}
    {l : List Nat} {p : Option Nat} (h : Seg link mem p l none) : p = l.head? := by
  cases l with
  | nil => exact h
  | cons x xs => exact h.1

theorem seg_frame {link : shash_node_t → Option Nat} {mem mem' : List shash_node_t} :
    ∀ {l : List Nat} {p q : Option Nat}, Seg link mem p l q →
      (∀ x ∈ l, ∀ n, mem[x]? = some n → ∃ n', mem'[x]? = some n' ∧ link n' = link n) →
      Seg link mem' p l q
  | [], _, _, h, _ => h
  | y :: ys, p, q, h, hf => by
    obtain ⟨hp, n, hn, hrest⟩ := h
    obtain ⟨n', hn', hl⟩ := hf y (List.mem_cons_self y ys) n hn
    refine ⟨hp, n', hn', ?_⟩
    rw [hl]
    exact seg_frame hrest (fun x hx => hf x (List.mem_cons_of_mem y hx))

theorem seg_append {link : shash_node_t → Option Nat} {mem : List shash_node_t} :
    ∀ {l₁ l₂ : List Nat} {p q : Option Nat},
      Seg link mem p (l₁ ++ l₂) q ↔ ∃ m, Seg link mem p l₁ m ∧ Seg link mem m l₂ q
  | [], l₂, p, q => by
    constructor
    · intro h
      exact ⟨p, rfl, h⟩
    · rintro ⟨m, hm, h⟩
      have : p = m := hm
      subst this
      exact h
  | x :: xs, l₂, p, q => by
    constructor
    · rintro ⟨hp, n, hn, hrest⟩
      obtain ⟨m, h1, h2⟩ := seg_append.mp hrest
      exact ⟨m, ⟨hp, n, hn, h1⟩, h2⟩
    · rintro ⟨m, ⟨hp, n, hn, h1⟩, h2⟩
      exact ⟨hp, n, hn, seg_append.mpr ⟨m, h1, h2⟩⟩

theorem walk_of_seg {link : shash_node_t → Option Nat} {mem : List shash_node_t} :
    ∀ {l : List Nat} {p : Option Nat} {fuel : Nat}, Seg link mem p l none →
      l.length ≤ fuel → walk link mem fuel p = some l
  | [], p, fuel, h, _ => by
    have : p = none := h
    subst this
    cases fuel <;> rfl
  | x :: xs, p, fuel, h, hf => by
    obtain ⟨hp, n, hn, hrest⟩ := h
    subst hp
    cases fuel with
    | zero => simp at hf
    | succ f =>
      have hlen : xs.length ≤ f := by simpa using hf
      simp only [walk, hn, walk_of_seg hrest hlen]

theorem length_le_of_nodup_lt {l : List Nat} {n : Nat} (hnd : l.Nodup)
    (hlt : ∀ x ∈ l, x < n) : l.length ≤ n := by
  have hsub : l ⊆ List.range n := fun x hx => List.mem_range.mpr (hlt x hx)
  have := (List.subperm_of_subset hnd hsub).length_le
  simpa using this

theorem seg_length_le {link : shash_node_t → Option Nat} {mem : List shash_node_t}
    {l : List Nat} {p q : Option Nat} (h : Seg link mem p l q) (hnd : l.Nodup) :
    l.length ≤ mem.length :=
  length_le_of_nodup_lt hnd (seg_lt h)

/-- Linking a new cell between the parts `A` and `B` of a segment. -/
theorem seg_splice {link : shash_node_t → Option Nat} {mem mem' : List shash_node_t}
    {B : List Nat} {z : Nat} {last : Option Nat} :
    ∀ {A : List Nat} {p : Option Nat},
      Seg link mem p (A ++ B) none → (A ++ B).Nodup → last = A.getLast? →
      (∃ n, mem'[z]? = some n ∧ link n = B.head?) →
      (∀ x n, mem[x]? = some n → ∃ n', mem'[x]? = some n' ∧
        link n' = if last = some x then some z else link n) →
      Seg link mem' (if A = [] then some z else p) (A ++ z :: B) none
  | [], p, h, hnd, hlast, ⟨nn, hnn, hnl⟩, hold => by
    simp only [List.nil_append] at h hnd ⊢
    refine ⟨rfl, nn, hnn, ?_⟩
    rw [hnl, ← seg_head h]
    refine seg_frame h ?_
    intro x _ n hn
    obtain ⟨n', hn', hl⟩ := hold x n hn
    refine ⟨n', hn', ?_⟩
    rw [hl, hlast]
    simp
  | [a], p, h, hnd, hlast, ⟨nn, hnn, hnl⟩, hold => by
    obtain ⟨hp, n, hn, hrest⟩ := h
    change Seg link mem (link n) B none at hrest
    simp only [List.cons_append, List.nil_append] at hnd ⊢
    obtain ⟨n', hn', hl⟩ := hold a n hn
    have hl' : link n' = some z := by
      rw [hl, hlast]
      simp
    refine ⟨by simpa using hp, n', hn', ?_⟩
    rw [hl']
    refine ⟨rfl, nn, hnn, ?_⟩
    rw [hnl, ← seg_head hrest]
    refine seg_frame hrest ?_
    intro x hx m hm
    obtain ⟨m', hm', hml⟩ := hold x m hm
    refine ⟨m', hm', ?_⟩
    rw [hml, hlast]
    have hne : a ≠ x := by
      rintro rfl
      exact (List.nodup_cons.mp hnd).1 hx
    simp [hne]
  | a :: b :: A, p, h, hnd, hlast, hnew, hold => by
    obtain ⟨hp, n, hn, hrest⟩ := h
    have hnd' : ((b :: A) ++ B).Nodup := (List.nodup_cons.mp hnd).2
    have hlast' : last = (b :: A).getLast? := by
      rw [hlast]
      simp [List.getLast?_cons_cons]
    have ih := seg_splice (A := b :: A) hrest hnd' hlast' hnew hold
    obtain ⟨n', hn', hl⟩ := hold a n hn
    have hane : last ≠ some a := by
      rw [hlast']
      intro hc
      have hmem : a ∈ b :: A := List.mem_of_getLast?_eq_some hc
      exact (List.nodup_cons.mp hnd).1 (List.mem_append_left B hmem)
    rw [if_neg hane] at hl
    refine ⟨by simpa using hp, n', hn', ?_⟩
    rw [hl]
    simpa using ih

/-! ## The invariant -/

theorem entry_at_of_get {mem : List shash_node_t} {x : Nat} {n : shash_node_t}
    (h : mem[x]? = some n) : entry_at mem x = (n.key, n.value) := by
  simp [entry_at, h]

theorem key_at_of_get {mem : List shash_node_t} {x : Nat} {n : shash_node_t}
    (h : mem[x]? = some n) : key_at mem x = n.key := by
  simp [key_at, entry_at_of_get h]

theorem pairwise_strcmp_nodup {mem : List shash_node_t} {l : List Nat}
    (h : l.Pairwise (fun x y => strcmp (key_at mem x) (key_at mem y) < 0)) : l.Nodup := by
  refine h.imp ?_
  intro a b hab heq
  subst heq
  rw [strcmp_self] at hab
  exact absurd hab (by decide)

theorem Inv.nodup {ki : CStr → Nat → Nat} {t : shash_table_t} {l : List Nat}
    {cs : List (List Nat)} {log : List (CStr × CStr)} (h : Inv ki t l cs log) : l.Nodup :=
  pairwise_strcmp_nodup h.sorted

theorem perm_flatten_set {c : List Nat} {x : Nat} :
    ∀ {cs : List (List Nat)} {j : Nat}, cs[j]? = some c →
      (cs.set j (x :: c)).flatten.Perm (x :: cs.flatten)
  | [], j, h => by simp at h
  | d :: ds, 0, h => by
    simp only [List.getElem?_cons_zero, Option.some.injEq] at h
    subst h
    simp
  | d :: ds, j + 1, h => by
    simp only [List.getElem?_cons_succ] at h
    simp only [List.set_cons_succ, List.flatten_cons]
    have ih := perm_flatten_set (x := x) h
    exact ((List.Perm.append_left d ih).trans List.perm_middle)

theorem Spliced.entry_old {t t' : shash_table_t} {pre post : List Nat} {k v : CStr}
    {j : Nat} {b : Option Nat} (hs : Spliced t t' pre post k v j b) {x : Nat}
    {n : shash_node_t} (hx : t.mem[x]? = some n) :
    entry_at t'.mem x = entry_at t.mem x := by
  rw [entry_at_of_get hx, entry_at_of_get (hs.old x n hx)]

theorem Spliced.key_old {t t' : shash_table_t} {pre post : List Nat} {k v : CStr}
    {j : Nat} {b : Option Nat} (hs : Spliced t t' pre post k v j b) {x : Nat}
    {n : shash_node_t} (hx : t.mem[x]? = some n) :
    key_at t'.mem x = key_at t.mem x := by
  simp [key_at, hs.entry_old hx]

theorem Spliced.entry_new {t t' : shash_table_t} {pre post : List Nat} {k v : CStr}
    {j : Nat} {b : Option Nat} (hs : Spliced t t' pre post k v j b) :
    entry_at t'.mem t.mem.length = (k, v) := by
  rw [entry_at_of_get hs.new]

theorem Spliced.key_new {t t' : shash_table_t} {pre post : List Nat} {k v : CStr}
    {j : Nat} {b : Option Nat} (hs : Spliced t t' pre post k v j b) :
    key_at t'.mem t.mem.length = k := by
  simp [key_at, hs.entry_new]

theorem inv_spliced {ki : CStr → Nat → Nat} {t t' : shash_table_t} {pre post : List Nat}
    {k v : CStr} {j : Nat} {b : Option Nat} {cs : List (List Nat)} {cj : List Nat}
    {log : List (CStr × CStr)}
    (hinv : Inv ki t (pre ++ post) cs log) (hs : Spliced t t' pre post k v j b)
    (hb : t.array[j]? = some b) (hcj : cs[j]? = some cj) (hj : ki k t.size = j)
    (hk : k ≠ [])
    (hpre : ∀ x ∈ pre, strcmp (key_at t.mem x) k < 0)
    (hpost : ∀ x ∈ post, strcmp k (key_at t.mem x) < 0) :
    Inv ki t' (pre ++ t.mem.length :: post) (cs.set j (t.mem.length :: cj))
      ((k, v) :: log) := by
  have hnd : (pre ++ post).Nodup := hinv.nodup
  have hvalid : ∀ x ∈ pre ++ post, ∃ n, t.mem[x]? = some n := seg_valid hinv.fwd
  have hkey : ∀ x ∈ pre ++ post, key_at t'.mem x = key_at t.mem x := by
    intro x hx
    obtain ⟨n, hn⟩ := hvalid x hx
    exact hs.key_old hn
  have hent : ∀ x ∈ pre ++ post, entry_at t'.mem x = entry_at t.mem x := by
    intro x hx
    obtain ⟨n, hn⟩ := hvalid x hx
    exact hs.entry_old hn
  have hnext : ∀ (x : Nat) (n : shash_node_t), t.mem[x]? = some n →
      ∃ n' : shash_node_t, t'.mem[x]? = some n' ∧ n'.next = n.next :=
    fun x n hn => ⟨_, hs.old x n hn, rfl⟩
  have hchainvalid : ∀ (i : Nat) (c : List Nat), cs[i]? = some c →
      ∀ x ∈ c, x ∈ pre ++ post := by
    intro i c hc x hx
    refine hinv.perm.subset ?_
    exact List.mem_flatten.mpr ⟨c, List.getElem?_mem hc, hx⟩
  refine ⟨?_, ?_, ?_, ?_, ?_, ?_, ?_, ?_, ?_, ?_⟩
  · rw [hs.array, hs.size, List.length_set, hinv.array_len]
  · rw [hs.shead]
    refine seg_splice hinv.fwd hnd rfl ⟨_, hs.new, rfl⟩ ?_
    intro x n hn
    exact ⟨_, hs.old x n hn, rfl⟩
  · rw [hs.stail]
    have hb' : Seg shash_node_t.sprev t.mem t.stail (post.reverse ++ pre.reverse) none := by
      have := hinv.bwd
      rwa [List.reverse_append] at this
    have hnd' : (post.reverse ++ pre.reverse).Nodup := by
      rw [← List.reverse_append]
      exact List.nodup_reverse.mpr hnd
    have hlast : post.head? = post.reverse.getLast? := by simp
    have := seg_splice (z := t.mem.length) hb' hnd' hlast
      ⟨_, hs.new, by simp⟩ (fun x n hn => ⟨_, hs.old x n hn, rfl⟩)
    simpa using this
  · rw [List.pairwise_append]
    obtain ⟨h1, h2, h3⟩ := List.pairwise_append.mp hinv.sorted
    refine ⟨?_, ?_, ?_⟩
    · refine h1.imp_of_mem ?_
      intro a c ha hc hac
      rwa [hkey a (List.mem_append_left _ ha), hkey c (List.mem_append_left _ hc)]
    · rw [List.pairwise_cons]
      refine ⟨?_, ?_⟩
      · intro y hy
        rw [hs.key_new, hkey y (List.mem_append_right _ hy)]
        exact hpost y hy
      · refine h2.imp_of_mem ?_
        intro a c ha hc hac
        rwa [hkey a (List.mem_append_right _ ha), hkey c (List.mem_append_right _ hc)]
    · intro a ha c hc
      rw [hkey a (List.mem_append_left _ ha)]
      rcases List.mem_cons.mp hc with rfl | hc
      · rw [hs.key_new]
        exact hpre a ha
      · rw [hkey c (List.mem_append_right _ hc)]
        exact h3 a ha c hc
  · intro x hx
    rcases List.mem_append.mp hx with hx | hx
    · rw [hkey x (List.mem_append_left _ hx)]
      exact hinv.key_ne x (List.mem_append_left _ hx)
    · rcases List.mem_cons.mp hx with rfl | hx
      · rw [hs.key_new]
        exact hk
      · rw [hkey x (List.mem_append_right _ hx)]
        exact hinv.key_ne x (List.mem_append_right _ hx)
  · rw [hs.array, List.length_set, List.length_set, hinv.chains_len]
  · intro i b' c' hb' hc'
    rw [hs.array, List.getElem?_set] at hb'
    rw [List.getElem?_set] at hc'
    by_cases hij : j = i
    · subst hij
      have hjlt : j < t.array.length := (List.getElem?_eq_some_iff.mp hb).1
      have hjlt' : j < cs.length := (List.getElem?_eq_some_iff.mp hcj).1
      simp only [if_true, hjlt, hjlt', Option.some.injEq] at hb' hc'
      subst hb' hc'
      refine ⟨rfl, _, hs.new, ?_⟩
      exact seg_frame (hinv.chain j b cj hb hcj) (fun x _ n hn => hnext x n hn)
    · rw [if_neg hij] at hb' hc'
      exact seg_frame (hinv.chain i b' c' hb' hc') (fun x _ n hn => hnext x n hn)
  · intro i c hc x hx
    rw [hs.size]
    rw [List.getElem?_set] at hc
    by_cases hij : j = i
    · subst hij
      have hjlt' : j < cs.length := (List.getElem?_eq_some_iff.mp hcj).1
      simp only [if_true, hjlt', Option.some.injEq] at hc
      subst hc
      rcases List.mem_cons.mp hx with rfl | hx
      · rw [hs.key_new]
        exact hj
      · rw [hkey x (hchainvalid j cj hcj x hx)]
        exact hinv.placed j cj hcj x hx
    · rw [if_neg hij] at hc
      rw [hkey x (hchainvalid i c hc x hx)]
      exact hinv.placed i c hc x hx
  · exact (perm_flatten_set hcj).trans
      (((List.Perm.cons _ hinv.perm)).trans List.perm_middle.symm)
  · intro k' v'
    have hmap : (pre ++ t.mem.length :: post).map (entry_at t'.mem) =
        pre.map (entry_at t.mem) ++ (k, v) :: post.map (entry_at t.mem) := by
      rw [List.map_append, List.map_cons, hs.entry_new]
      congr 1
      · exact List.map_congr_left (fun x hx => hent x (List.mem_append_left _ hx))
      · congr 1
        exact List.map_congr_left (fun x hx => hent x (List.mem_append_right _ hx))
    have hold : (k', v') ∈ pre.map (entry_at t.mem) ∨ (k', v') ∈ post.map (entry_at t.mem) ↔
        last_set log k' = some v' := by
      rw [← hinv.model k' v', List.map_append, List.mem_append]
    have hfresh : ∀ x ∈ pre ++ post, key_at t.mem x ≠ k := by
      intro x hx heq
      rcases List.mem_append.mp hx with hx | hx
      · have := hpre x hx
        rw [heq, strcmp_self] at this
        exact absurd this (by decide)
      · have := hpost x hx
        rw [heq, strcmp_self] at this
        exact absurd this (by decide)
    rw [hmap, List.mem_append, List.mem_cons]
    simp only [last_set]
    by_cases hkk : k = k'
    · subst hkk
      rw [if_pos rfl]
      have hno : ¬ ((k, v') ∈ pre.map (entry_at t.mem) ∨ (k, v') ∈ post.map (entry_at t.mem)) := by
        rw [← List.mem_append, ← List.map_append]
        intro hmem
        obtain ⟨x, hx, hxe⟩ := List.mem_map.mp hmem
        exact hfresh x hx (by simp [key_at, hxe])
      constructor
      · rintro (h | h | h)
        · exact absurd (Or.inl h) hno
        · simp only [Prod.mk.injEq, true_and] at h
          rw [h]
        · exact absurd (Or.inr h) hno
      · intro h
        simp only [Option.some.injEq] at h
        subst h
        exact Or.inr (Or.inl rfl)
    · rw [if_neg hkk, ← hold]
      constructor
      · rintro (h | h | h)
        · exact Or.inl h
        · simp only [Prod.mk.injEq] at h
          exact absurd h.1.symm hkk
        · exact Or.inr h
      · rintro (h | h)
        · exact Or.inl h
        · exact Or.inr (Or.inr h)

/-! ## The loops on a linked segment -/

theorem set_find_seg {mem : List shash_node_t} {key : CStr} :
    ∀ {l : List Nat} {p : Option Nat} {fuel : Nat},
      Seg shash_node_t.snext mem p l none → l.length ≤ fuel →
      set_find mem key fuel p = some (l.find? (fun x => decide (key_at mem x = key)))
  | [], p, fuel, h, _ => by
    have : p = none := h
    subst this
    cases fuel <;> rfl
  | x :: xs, p, fuel, h, hf => by
    obtain ⟨hp, n, hn, hrest⟩ := h
    subst hp
    cases fuel with
    | zero => simp at hf
    | succ f =>
      have hlen : xs.length ≤ f := by simpa using hf
      simp only [set_find, hn, List.find?_cons, key_at_of_get hn, strcmp_eq_zero_iff]
      by_cases hk : n.key = key
      · simp [hk]
      · simp only [hk, if_false, decide_False]
        exact set_find_seg hrest hlen

theorem get_find_eq_set_find (mem : List shash_node_t) (key : CStr) :
    ∀ (fuel : Nat) (p : Option Nat), get_find mem key fuel p = set_find mem key fuel p
  | 0, none => rfl
  | 0, some _ => rfl
  | _ + 1, none => rfl
  | fuel + 1, some p => by
    simp only [get_find, set_find]
    cases mem[p]? with
    | none => rfl
    | some n =>
      by_cases h : strcmp n.key key = 0
      · simp [h]
      · simp [h, get_find_eq_set_find mem key fuel]

/-- The walk of lines 105-106 stops at the last entry of the spine whose key is smaller
than `key`, when the first entry has a smaller key. -/
theorem set_walk_seg {mem : List shash_node_t} {key : CStr} :
    ∀ {rest : List Nat} {h : Nat} {fuel : Nat},
      Seg shash_node_t.snext mem (some h) (h :: rest) none → rest.length < fuel →
      strcmp (key_at mem h) key < 0 →
      ∃ pre post kk, h :: rest = pre ++ kk :: post ∧ set_walk mem key fuel h = some kk ∧
        (∀ x ∈ pre ++ [kk], strcmp (key_at mem x) key < 0) ∧
        (∀ s, post.head? = some s → ¬ strcmp (key_at mem s) key < 0)
  | [], h, fuel, hseg, hf, hlt => by
    obtain ⟨_, n, hn, hrest⟩ := hseg
    have hnil : n.snext = none := hrest
    cases fuel with
    | zero => simp at hf
    | succ f =>
      refine ⟨[], [], h, rfl, ?_, ?_, ?_⟩
      · simp [set_walk, hn, hnil]
      · intro x hx
        simp only [List.nil_append, List.mem_singleton] at hx
        subst hx
        exact hlt
      · intro s hs
        simp at hs
  | s :: rest, h, fuel, hseg, hf, hlt => by
    obtain ⟨_, n, hn, hrest⟩ := hseg
    have hs : n.snext = some s := hrest.1
    obtain ⟨sn, hsn, _⟩ := hrest.2
    cases fuel with
    | zero => simp at hf
    | succ f =>
      have hlen : rest.length < f := by simpa using hf
      by_cases hlt' : strcmp sn.key key < 0
      · have hseg' : Seg shash_node_t.snext mem (some s) (s :: rest) none := hs ▸ hrest
        have hks : strcmp (key_at mem s) key < 0 := by rwa [key_at_of_get hsn]
        obtain ⟨pre, post, kk, heq, hw, hpre, hpost⟩ := set_walk_seg hseg' hlen hks
        refine ⟨h :: pre, post, kk, by rw [heq]; rfl, ?_, ?_, hpost⟩
        · simp [set_walk, hn, hs, hsn, hlt', hw]
        · intro x hx
          rcases List.mem_cons.mp hx with rfl | hx
          · exact hlt
          · exact hpre x hx
      · refine ⟨[], s :: rest, h, rfl, ?_, ?_, ?_⟩
        · simp [set_walk, hn, hs, hsn, hlt']
        · intro x hx
          simp only [List.nil_append, List.mem_singleton] at hx
          subst hx
          exact hlt
        · intro s' hs'
          simp only [List.head?_cons, Option.some.injEq] at hs'
          subst hs'
          rwa [key_at_of_get hsn]

theorem print_loop_seg {link : shash_node_t → Option Nat} {mem : List shash_node_t} :
    ∀ {l : List Nat} {p : Option Nat} {fuel : Nat}, Seg link mem p l none →
      l.length ≤ fuel →
      print_loop link mem fuel p =
        some (List.intercalate (cstr ", ") ((l.map (entry_at mem)).map fmt_entry))
  | [], p, fuel, h, _ => by
    have : p = none := h
    subst this
    cases fuel <;> rfl
  | [x], p, fuel, h, hf => by
    obtain ⟨hp, n, hn, hrest⟩ := h
    subst hp
    have hnil : link n = none := hrest
    cases fuel with
    | zero => simp at hf
    | succ f =>
      have h0 : print_loop link mem f none = some [] := by cases f <;> rfl
      simp [print_loop, hn, hnil, h0, entry_at_of_get hn, fmt_entry, List.intercalate]
  | x :: y :: ys, p, fuel, h, hf => by
    obtain ⟨hp, n, hn, hrest⟩ := h
    subst hp
    have hy : link n = some y := hrest.1
    cases fuel with
    | zero => simp at hf
    | succ f =>
      have hlen : (y :: ys).length ≤ f := by simpa using hf
      have ih := print_loop_seg hrest hlen
      simp only [print_loop, hn, ih]
      simp [hy, entry_at_of_get hn, fmt_entry, List.intercalate]

/-! ## The effect of `shash_table_set` -/

theorem get_append_old {mem : List shash_node_t} {x : Nat} {n c : shash_node_t}
    (h : mem[x]? = some n) : (mem ++ [c])[x]? = some n := by
  rw [List.getElem?_append_left (List.getElem?_eq_some_iff.mp h).1, h]

theorem get_append_new (mem : List shash_node_t) (c : shash_node_t) :
    (mem ++ [c])[mem.length]? = some c := by
  simp

theorem set_find_inv {ki : CStr → Nat → Nat} {t : shash_table_t} {l : List Nat}
    {cs : List (List Nat)} {log : List (CStr × CStr)} (hinv : Inv ki t l cs log) (k : CStr) :
    set_find t.mem k t.mem.length t.shead =
      some (l.find? (fun x => decide (key_at t.mem x = k))) :=
  set_find_seg hinv.fwd (seg_length_le hinv.fwd hinv.nodup)

theorem set_insert_empty {ki : CStr → Nat → Nat} {t : shash_table_t}
    {cs : List (List Nat)} {log : List (CStr × CStr)} {a : set_allocs} {k v : CStr}
    {b : Option Nat}
    (hinv : Inv ki t [] cs log) (hk : k ≠ []) (h1 : a.value_dup = true)
    (h2 : a.node = true) (h3 : a.key_dup = true)
    (hb : t.array[ki k t.size]? = some b) :
    ∃ t', shash_table_set ki a (some t) (some k) (some v) = some (1, some t') ∧
      Spliced t t' [] [] k v (ki k t.size) b := by
  have hfind := set_find_inv hinv k
  have hhead : t.shead = none := hinv.fwd
  simp only [List.find?_nil, hhead] at hfind
  simp only [shash_table_set, hk, h1, h2, h3, hhead, hfind, hb, Bool.true_eq_false, if_false]
  refine ⟨_, rfl, ?_⟩
  refine ⟨rfl, rfl, ?_, ?_, rfl, rfl⟩
  · simp
  · intro x n hn
    simp [get_append_old hn]

theorem set_insert_head {ki : CStr → Nat → Nat} {t : shash_table_t} {h : Nat}
    {rest : List Nat} {cs : List (List Nat)} {log : List (CStr × CStr)} {a : set_allocs}
    {k v : CStr} {b : Option Nat} {hn : shash_node_t}
    (hinv : Inv ki t (h :: rest) cs log) (hk : k ≠ []) (h1 : a.value_dup = true)
    (h2 : a.node = true) (h3 : a.key_dup = true)
    (hfresh : ∀ x ∈ h :: rest, key_at t.mem x ≠ k)
    (hb : t.array[ki k t.size]? = some b)
    (hhn : t.mem[h]? = some hn) (hgt : strcmp hn.key k > 0) :
    ∃ t', shash_table_set ki a (some t) (some k) (some v) = some (1, some t') ∧
      Spliced t t' [] (h :: rest) k v (ki k t.size) b := by
  have hfind := set_find_inv hinv k
  have hhead : t.shead = some h := hinv.fwd.1
  have hnone : (h :: rest).find? (fun x => decide (key_at t.mem x = k)) = none := by
    rw [List.find?_eq_none]
    intro x hx
    simpa using hfresh x hx
  rw [hnone, hhead] at hfind
  have hlt : h < t.mem.length := (List.getElem?_eq_some_iff.mp hhn).1
  have hne : t.mem.length ≠ h := by omega
  simp only [shash_table_set, hk, h1, h2, h3, hhead, hfind, hb, Bool.true_eq_false, if_false,
    get_append_old hhn, hgt, if_true, store, get_append_new, List.getElem?_set, hne,
    List.length_append, List.length_singleton]
  refine ⟨_, rfl, ?_⟩
  refine ⟨rfl, rfl, ?_, ?_, ?_, ?_⟩
  · simp [List.getElem?_set, hne, hne.symm]
  · intro x n hx
    have hxlt : x < t.mem.length := (List.getElem?_eq_some_iff.mp hx).1
    have hxne : t.mem.length ≠ x := by omega
    by_cases hxh : h = x
    · subst hxh
      have hnn : n = hn := by
        rw [hhn] at hx
        exact (Option.some.inj hx).symm
      subst hnn
      have hlt' : h < t.mem.length + 1 := by omega
      simp only [List.getElem?_set, List.length_set, List.length_append,
        List.length_singleton, if_true, hlt', List.head?_cons, List.getLast?_nil]
      simp
    · have hxh' : ¬ some h = some x := by simpa using hxh
      simp only [List.getElem?_set, hxh, hxne, get_append_old hx, if_false,
        List.head?_cons, List.getLast?_nil, hxh']
      simp
  · simp
  · simp

theorem getLast?_snoc (l : List Nat) (x : Nat) : (l ++ [x]).getLast? = some x := by
  simp

theorem key_at_append_old {mem : List shash_node_t} {x : Nat} {n c : shash_node_t}
    (h : mem[x]? = some n) : key_at (mem ++ [c]) x = key_at mem x := by
  rw [key_at_of_get h, key_at_of_get (get_append_old h)]

theorem set_insert_walk {ki : CStr → Nat → Nat} {t : shash_table_t} {h : Nat}
    {rest : List Nat} {cs : List (List Nat)} {log : List (CStr × CStr)} {a : set_allocs}
    {k v : CStr} {b : Option Nat} {hn : shash_node_t}
    (hinv : Inv ki t (h :: rest) cs log) (hk : k ≠ []) (h1 : a.value_dup = true)
    (h2 : a.node = true) (h3 : a.key_dup = true)
    (hfresh : ∀ x ∈ h :: rest, key_at t.mem x ≠ k)
    (hb : t.array[ki k t.size]? = some b)
    (hhn : t.mem[h]? = some hn) (hle : ¬ strcmp hn.key k > 0) :
    ∃ t' pre post, shash_table_set ki a (some t) (some k) (some v) = some (1, some t') ∧
      h :: rest = pre ++ post ∧ Spliced t t' pre post k v (ki k t.size) b ∧
      (∀ x ∈ pre, strcmp (key_at t.mem x) k < 0) ∧
      (∀ s, post.head? = some s → ¬ strcmp (key_at t.mem s) k < 0) := by
  have hfind := set_find_inv hinv k
  have hhead : t.shead = some h := hinv.fwd.1
  have hnone : (h :: rest).find? (fun x => decide (key_at t.mem x = k)) = none := by
    rw [List.find?_eq_none]
    intro x hx
    simpa using hfresh x hx
  rw [hnone, hhead] at hfind
  have hvalid := seg_valid hinv.fwd
  have hfwd : Seg shash_node_t.snext t.mem (some h) (h :: rest) none := hhead ▸ hinv.fwd
  have hseg0 : Seg shash_node_t.snext (t.mem ++ [⟨k, v, b, none, none⟩]) (some h)
      (h :: rest) none :=
    seg_frame hfwd (fun x _ n hx => ⟨n, get_append_old hx, rfl⟩)
  have hlen : rest.length < (t.mem ++ [(⟨k, v, b, none, none⟩ : shash_node_t)]).length := by
    have := seg_length_le hinv.fwd hinv.nodup
    simp only [List.length_cons, List.length_append, List.length_singleton] at this ⊢
    omega
  have hlt0 : strcmp (key_at (t.mem ++ [⟨k, v, b, none, none⟩]) h) k < 0 := by
    rw [key_at_append_old hhn, key_at_of_get hhn]
    have hne : strcmp hn.key k ≠ 0 := by
      intro hc
      have := hfresh h (List.mem_cons_self h rest)
      rw [key_at_of_get hhn] at this
      exact this (eq_of_strcmp_eq_zero _ _ hc)
    omega
  obtain ⟨pre0, post, kk, heq, hw, hpre, hpost⟩ := set_walk_seg hseg0 hlen hlt0
  have hkkmem : kk ∈ h :: rest := by
    rw [heq]
    simp
  obtain ⟨kn, hkn⟩ := hvalid kk hkkmem
  have hsnext : kn.snext = post.head? := by
    have h' := hfwd
    rw [heq] at h'
    obtain ⟨m, _, hm2⟩ := seg_append.mp h'
    obtain ⟨_, n, hn', hrest⟩ := hm2
    rw [hkn] at hn'
    cases hn'
    exact seg_head hrest
  have hpre' : ∀ x ∈ pre0 ++ [kk], strcmp (key_at t.mem x) k < 0 := by
    intro x hx
    have hxmem : x ∈ h :: rest := by
      rw [heq]
      rcases List.mem_append.mp hx with hx | hx
      · exact List.mem_append_left _ hx
      · exact List.mem_append_right _ (List.mem_cons.mpr (Or.inl (List.mem_singleton.mp hx)))
    obtain ⟨n, hxn⟩ := hvalid x hxmem
    rw [← key_at_append_old hxn]
    exact hpre x hx
  have hpost' : ∀ s, post.head? = some s → ¬ strcmp (key_at t.mem s) k < 0 := by
    intro s hs
    have hsmem : s ∈ h :: rest := by
      rw [heq]
      exact List.mem_append_right _ (List.mem_cons_of_mem _ (List.mem_of_mem_head? hs))
    obtain ⟨n, hsn⟩ := hvalid s hsmem
    rw [← key_at_append_old hsn]
    exact hpost s hs
  have hkklt : kk < t.mem.length := (List.getElem?_eq_some_iff.mp hkn).1
  have hnekk : t.mem.length ≠ kk := by omega
  have hnd : (pre0 ++ kk :: post).Nodup := heq ▸ hinv.nodup
  have hmain : ∃ t', shash_table_set ki a (some t) (some k) (some v) = some (1, some t') ∧
      Spliced t t' (pre0 ++ [kk]) post k v (ki k t.size) b := by
    simp only [shash_table_set, hk, h1, h2, h3, hhead, hfind, hb, Bool.true_eq_false, if_false,
      get_append_old hhn, hle, hw, get_append_old hkn]
    cases post with
    | nil =>
      simp only [List.head?_nil] at hsnext
      simp only [hsnext, store, get_append_new, List.getElem?_set, hnekk, if_false,
        get_append_old hkn]
      refine ⟨_, rfl, ?_⟩
      have hkkne : ¬ kk = t.mem.length := fun hc => hnekk hc.symm
      refine ⟨rfl, rfl, ?_, ?_, ?_, ?_⟩
      · simp only [List.getElem?_set, hkkne, if_false, if_true, List.length_append,
          List.length_singleton, Nat.lt_succ_self, getLast?_snoc,
          List.head?_nil]
      · intro x n hx
        have hxlt : x < t.mem.length := (List.getElem?_eq_some_iff.mp hx).1
        have hxne : t.mem.length ≠ x := by omega
        have hkklt' : kk < t.mem.length + 1 := by omega
        by_cases hxk : kk = x
        · subst hxk
          have hnn : n = kn := by
            rw [hkn] at hx
            exact (Option.some.inj hx).symm
          subst hnn
          simp only [List.getElem?_set, List.length_set, List.length_append,
            List.length_singleton, if_true, hkklt', getLast?_snoc, List.head?_nil]
          simp
        · have hxk' : ¬ some kk = some x := by simpa using hxk
          simp only [List.getElem?_set, hxk, hxne, get_append_old hx, if_false,
            getLast?_snoc, List.head?_nil, hxk']
          simp
      · simp [hhead]
      · simp
    | cons s post' =>
      simp only [List.head?_cons] at hsnext
      have hsmem : s ∈ h :: rest := by
        rw [heq]
        simp
      obtain ⟨sn, hsn⟩ := hvalid s hsmem
      have hslt : s < t.mem.length := (List.getElem?_eq_some_iff.mp hsn).1
      have hnes : t.mem.length ≠ s := by omega
      have hsne : ¬ s = t.mem.length := fun hc => hnes hc.symm
      have hkks : kk ≠ s := by
        intro hc
        subst hc
        have := (List.nodup_append.mp hnd).2.1
        simp at this
      have hskk : ¬ s = kk := fun hc => hkks hc.symm
      have hkkne : ¬ kk = t.mem.length := fun hc => hnekk hc.symm
      have hkklt' : kk < t.mem.length + 1 := by omega
      have hslt' : s < t.mem.length + 1 := by omega
      simp only [hsnext, store, get_append_new, List.getElem?_set, hnekk, hnes, hskk, if_false,
        get_append_old hkn, get_append_old hsn]
      refine ⟨_, rfl, ?_⟩
      refine ⟨rfl, rfl, ?_, ?_, ?_, ?_⟩
      · simp only [List.getElem?_set, hkkne, hsne, if_false, if_true, List.length_append,
          List.length_singleton, Nat.lt_succ_self, getLast?_snoc, List.head?_cons]
      · intro x n hx
        have hxlt : x < t.mem.length := (List.getElem?_eq_some_iff.mp hx).1
        have hxne : t.mem.length ≠ x := by omega
        by_cases hxk : kk = x
        · subst hxk
          have hnn : n = kn := by
            rw [hkn] at hx
            exact (Option.some.inj hx).symm
          subst hnn
          have hskk' : ¬ some s = some kk := by simpa using hskk
          simp only [List.getElem?_set, List.length_set, List.length_append,
            List.length_singleton, if_true, hkklt', getLast?_snoc, List.head?_cons, hskk',
            if_false]
        · have hxk' : ¬ some kk = some x := by simpa using hxk
          by_cases hxs : s = x
          · subst hxs
            have hnn : n = sn := by
              rw [hsn] at hx
              exact (Option.some.inj hx).symm
            subst hnn
            simp only [List.getElem?_set, List.length_set, List.length_append,
              List.length_singleton, if_true, hslt', getLast?_snoc, List.head?_cons, hxk',
              hxk, if_false]
          · have hxs' : ¬ some s = some x := by simpa using hxs
            simp only [List.getElem?_set, hxk, hxs, hxne, get_append_old hx, if_false,
              getLast?_snoc, List.head?_cons, hxk', hxs']
      · simp [hhead]
      · simp
  obtain ⟨t', hset, hsp⟩ := hmain
  exact ⟨t', pre0 ++ [kk], post, hset, by simpa using heq, hsp, hpre', hpost'⟩

/-! ## `shash_table_set` keeps the invariant -/

theorem key_inj_of_sorted {mem : List shash_node_t} {l : List Nat}
    (h : l.Pairwise (fun x y => strcmp (key_at mem x) (key_at mem y) < 0))
    {x y : Nat} (hx : x ∈ l) (hy : y ∈ l) (hxy : key_at mem x = key_at mem y) : x = y := by
  by_contra hne
  have hp : l.Pairwise (fun x y => key_at mem x ≠ key_at mem y) := by
    refine h.imp ?_
    intro a b hab heq
    rw [heq, strcmp_self] at hab
    exact absurd hab (by decide)
  have hsym : Symmetric (fun x y : Nat => key_at mem x ≠ key_at mem y) :=
    fun _ _ hab hba => hab hba.symm
  exact hp.forall hsym hx hy hne hxy

theorem sorted_gt_of_head {mem : List shash_node_t} {k : CStr} {s : Nat} {post : List Nat}
    (h : (s :: post).Pairwise (fun x y => strcmp (key_at mem x) (key_at mem y) < 0))
    (hs : strcmp k (key_at mem s) < 0) :
    ∀ x ∈ s :: post, strcmp k (key_at mem x) < 0 := by
  intro x hx
  rcases List.mem_cons.mp hx with rfl | hx
  · exact hs
  · exact strcmp_trans _ _ _ hs ((List.pairwise_cons.mp h).1 x hx)

theorem strcmp_gt_of_not_lt {a k : CStr} (hlt : ¬ strcmp a k < 0) (hne : a ≠ k) :
    strcmp k a < 0 := by
  rw [← strcmp_pos_iff]
  have : strcmp a k ≠ 0 := fun hc => hne (eq_of_strcmp_eq_zero _ _ hc)
  omega

theorem set_insert {ki : CStr → Nat → Nat} {t : shash_table_t} {l : List Nat}
    {cs : List (List Nat)} {log : List (CStr × CStr)} {a : set_allocs} {k v : CStr}
    {b : Option Nat}
    (hinv : Inv ki t l cs log) (hk : k ≠ []) (h1 : a.value_dup = true)
    (h2 : a.node = true) (h3 : a.key_dup = true)
    (hfresh : ∀ x ∈ l, key_at t.mem x ≠ k)
    (hb : t.array[ki k t.size]? = some b) :
    ∃ t' pre post cj, shash_table_set ki a (some t) (some k) (some v) = some (1, some t') ∧
      l = pre ++ post ∧ Spliced t t' pre post k v (ki k t.size) b ∧
      cs[ki k t.size]? = some cj ∧
      Inv ki t' (pre ++ t.mem.length :: post)
        (cs.set (ki k t.size) (t.mem.length :: cj)) ((k, v) :: log) := by
  have hjlt : ki k t.size < cs.length := by
    rw [hinv.chains_len]
    exact (List.getElem?_eq_some_iff.mp hb).1
  obtain ⟨cj, hcj⟩ : ∃ cj, cs[ki k t.size]? = some cj :=
    ⟨cs[ki k t.size], List.getElem?_eq_getElem hjlt⟩
  have hvalid := seg_valid hinv.fwd
  have key : ∀ t' pre post, shash_table_set ki a (some t) (some k) (some v) = some (1, some t') →
      l = pre ++ post → Spliced t t' pre post k v (ki k t.size) b →
      (∀ x ∈ pre, strcmp (key_at t.mem x) k < 0) →
      (∀ x ∈ post, strcmp k (key_at t.mem x) < 0) →
      ∃ t' pre post cj, shash_table_set ki a (some t) (some k) (some v) = some (1, some t') ∧
        l = pre ++ post ∧ Spliced t t' pre post k v (ki k t.size) b ∧
        cs[ki k t.size]? = some cj ∧
        Inv ki t' (pre ++ t.mem.length :: post)
          (cs.set (ki k t.size) (t.mem.length :: cj)) ((k, v) :: log) := by
    intro t' pre post hset hl hsp hpre hpost
    subst hl
    exact ⟨t', pre, post, cj, hset, rfl, hsp, hcj,
      inv_spliced hinv hsp hb hcj rfl hk hpre hpost⟩
  cases l with
  | nil =>
    obtain ⟨t', hset, hsp⟩ := set_insert_empty (v := v) hinv hk h1 h2 h3 hb
    exact key t' [] [] hset rfl hsp (by simp) (by simp)
  | cons h rest =>
    obtain ⟨hn, hhn⟩ := hvalid h (List.mem_cons_self h rest)
    by_cases hgt : strcmp hn.key k > 0
    · obtain ⟨t', hset, hsp⟩ := set_insert_head (v := v) hinv hk h1 h2 h3 hfresh hb hhn hgt
      refine key t' [] (h :: rest) hset rfl hsp (by simp) ?_
      refine sorted_gt_of_head hinv.sorted ?_
      rw [key_at_of_get hhn, ← strcmp_pos_iff]
      exact hgt
    · obtain ⟨t', pre, post, hset, hl, hsp, hpre, hpost⟩ :=
        set_insert_walk (v := v) hinv hk h1 h2 h3 hfresh hb hhn hgt
      refine key t' pre post hset hl hsp hpre ?_
      cases post with
      | nil => simp
      | cons s post' =>
        have hsorted := hinv.sorted
        rw [hl] at hsorted
        refine sorted_gt_of_head (List.pairwise_append.mp hsorted).2.1 ?_
        refine strcmp_gt_of_not_lt (hpost s rfl) ?_
        refine hfresh s ?_
        rw [hl]
        simp

theorem set_update {ki : CStr → Nat → Nat} {t : shash_table_t} {l : List Nat}
    {cs : List (List Nat)} {log : List (CStr × CStr)} {a : set_allocs} {k v : CStr} {p : Nat}
    (hinv : Inv ki t l cs log) (hk : k ≠ []) (h1 : a.value_dup = true)
    (hp : l.find? (fun x => decide (key_at t.mem x = k)) = some p) :
    ∃ n, t.mem[p]? = some n ∧ n.key = k ∧
      shash_table_set ki a (some t) (some k) (some v) =
        some (1, some { t with mem := t.mem.set p { n with value := v } }) ∧
      Inv ki { t with mem := t.mem.set p { n with value := v } } l cs ((k, v) :: log) := by
  have hfind := set_find_inv hinv k
  rw [hp] at hfind
  have hpl : p ∈ l := List.mem_of_find?_eq_some hp
  have hpk : key_at t.mem p = k := by simpa using List.find?_some hp
  obtain ⟨n, hn⟩ := seg_valid hinv.fwd p hpl
  have hnk : n.key = k := by rw [← key_at_of_get hn, hpk]
  have hplt : p < t.mem.length := (List.getElem?_eq_some_iff.mp hn).1
  refine ⟨n, hn, hnk, ?_, ?_⟩
  · simp only [shash_table_set, hk, h1, hfind, store, hn, Bool.true_eq_false, if_false]
  · have hget : ∀ (x : Nat) (m : shash_node_t), t.mem[x]? = some m →
        (t.mem.set p { n with value := v })[x]? =
          some (if p = x then { m with value := v } else m) := by
      intro x m hx
      rw [List.getElem?_set]
      by_cases hpx : p = x
      · subst hpx
        rw [hn] at hx
        cases hx
        simp [hplt]
      · simp [hpx, hx]
    have hkey : ∀ x ∈ l, key_at (t.mem.set p { n with value := v }) x = key_at t.mem x := by
      intro x hx
      obtain ⟨m, hm⟩ := seg_valid hinv.fwd x hx
      rw [key_at_of_get hm, key_at_of_get (hget x m hm)]
      split <;> rfl
    have hframe : ∀ (link : shash_node_t → Option Nat),
        (∀ m : shash_node_t, link { m with value := v } = link m) →
        ∀ (x : Nat) (m : shash_node_t), t.mem[x]? = some m →
        ∃ m', (t.mem.set p { n with value := v })[x]? = some m' ∧ link m' = link m := by
      intro link hlink x m hx
      refine ⟨_, hget x m hx, ?_⟩
      split
      · exact hlink m
      · rfl
    have hsub : ∀ (i : Nat) (c : List Nat), cs[i]? = some c → ∀ x ∈ c, x ∈ l := by
      intro i c hc x hx
      exact hinv.perm.subset (List.mem_flatten.mpr ⟨c, List.getElem?_mem hc, hx⟩)
    refine ⟨hinv.array_len, ?_, ?_, ?_, ?_, hinv.chains_len, ?_, ?_, hinv.perm, ?_⟩
    · exact seg_frame hinv.fwd
        (fun x _ m hm => hframe shash_node_t.snext (fun _ => rfl) x m hm)
    · exact seg_frame hinv.bwd
        (fun x _ m hm => hframe shash_node_t.sprev (fun _ => rfl) x m hm)
    · refine hinv.sorted.imp_of_mem ?_
      intro x y hx hy hxy
      show strcmp (key_at (t.mem.set p _) x) (key_at (t.mem.set p _) y) < 0
      rwa [hkey x hx, hkey y hy]
    · intro x hx
      show key_at (t.mem.set p _) x ≠ []
      rw [hkey x hx]
      exact hinv.key_ne x hx
    · intro i b c hb hc
      exact seg_frame (hinv.chain i b c hb hc)
        (fun x _ m hm => hframe shash_node_t.next (fun _ => rfl) x m hm)
    · intro i c hc x hx
      show ki (key_at (t.mem.set p _) x) t.size = i
      rw [hkey x (hsub i c hc x hx)]
      exact hinv.placed i c hc x hx
    · intro k' v'
      show (k', v') ∈ l.map (entry_at (t.mem.set p _)) ↔ _
      have hent : ∀ x ∈ l, entry_at (t.mem.set p { n with value := v }) x =
          if p = x then (k, v) else entry_at t.mem x := by
        intro x hx
        obtain ⟨m, hm⟩ := seg_valid hinv.fwd x hx
        rw [entry_at_of_get (hget x m hm), entry_at_of_get hm]
        by_cases hpx : p = x
        · subst hpx
          rw [hn] at hm
          cases hm
          simp [hnk]
        · simp [hpx]
      have hother : ∀ x ∈ l, p ≠ x → (entry_at t.mem x).1 ≠ k := by
        intro x hx hpx hc
        refine hpx (key_inj_of_sorted hinv.sorted hpl hx ?_)
        rw [hpk]
        exact hc.symm
      simp only [last_set]
      rw [List.mem_map]
      by_cases hkk : k = k'
      · subst hkk
        rw [if_pos rfl]
        constructor
        · rintro ⟨x, hx, hxe⟩
          rw [hent x hx] at hxe
          by_cases hpx : p = x
          · rw [if_pos hpx] at hxe
            simp only [Prod.mk.injEq, true_and] at hxe
            rw [hxe]
          · rw [if_neg hpx] at hxe
            exact absurd (by rw [hxe]) (hother x hx hpx)
        · intro h
          simp only [Option.some.injEq] at h
          subst h
          exact ⟨p, hpl, by rw [hent p hpl, if_pos rfl]⟩
      · rw [if_neg hkk, ← hinv.model k' v', List.mem_map]
        constructor
        · rintro ⟨x, hx, hxe⟩
          rw [hent x hx] at hxe
          by_cases hpx : p = x
          · rw [if_pos hpx] at hxe
            simp only [Prod.mk.injEq] at hxe
            exact absurd hxe.1 hkk
          · rw [if_neg hpx] at hxe
            exact ⟨x, hx, hxe⟩
        · rintro ⟨x, hx, hxe⟩
          have hpx : p ≠ x := by
            intro hc
            subst hc
            have : (entry_at t.mem p).1 = k := hpk
            rw [hxe] at this
            exact hkk this.symm
          exact ⟨x, hx, by rw [hent x hx, if_neg hpx, hxe]⟩

/-! ## Every outcome of `shash_table_set` -/

theorem set_null_table (ki : CStr → Nat → Nat) (a : set_allocs) (key value : Option CStr) :
    shash_table_set ki a none key value = some (0, none) := by
  simp [shash_table_set]

theorem set_null_key (ki : CStr → Nat → Nat) (a : set_allocs) (ht : Option shash_table_t)
    (value : Option CStr) : shash_table_set ki a ht none value = some (0, ht) := by
  cases ht <;> simp [shash_table_set]

theorem set_null_value (ki : CStr → Nat → Nat) (a : set_allocs) (ht : Option shash_table_t)
    (key : Option CStr) : shash_table_set ki a ht key none = some (0, ht) := by
  cases ht <;> cases key <;> simp [shash_table_set]

theorem set_empty_key (ki : CStr → Nat → Nat) (a : set_allocs) (ht : Option shash_table_t)
    (value : Option CStr) : shash_table_set ki a ht (some []) value = some (0, ht) := by
  cases ht <;> cases value <;> simp [shash_table_set]

theorem set_value_dup_fail (ki : CStr → Nat → Nat) {a : set_allocs} (ha : a.value_dup = false)
    (ht : Option shash_table_t) (key value : Option CStr) :
    shash_table_set ki a ht key value = some (0, ht) := by
  cases ht <;> cases key <;> cases value <;> simp [shash_table_set, ha]

theorem find_none_of_fresh {mem : List shash_node_t} {l : List Nat} {k : CStr} :
    l.find? (fun x => decide (key_at mem x = k)) = none ↔ ∀ x ∈ l, key_at mem x ≠ k := by
  rw [List.find?_eq_none]
  simp

theorem set_node_fail {ki : CStr → Nat → Nat} {t : shash_table_t} {l : List Nat}
    {cs : List (List Nat)} {log : List (CStr × CStr)} {a : set_allocs} {k : CStr}
    (hinv : Inv ki t l cs log) (hfresh : ∀ x ∈ l, key_at t.mem x ≠ k)
    (ha : a.node = false ∨ a.key_dup = false) (v : CStr) :
    shash_table_set ki a (some t) (some k) (some v) = some (0, some t) := by
  have hfind := set_find_inv hinv k
  rw [find_none_of_fresh.mpr hfresh] at hfind
  by_cases hk : k = []
  · subst hk
    exact set_empty_key ki a (some t) (some v)
  · by_cases h1 : a.value_dup = false
    · exact set_value_dup_fail ki h1 _ _ _
    · rcases ha with ha | ha
      · simp [shash_table_set, hk, h1, hfind, ha]
      · simp [shash_table_set, hk, h1, hfind, ha]

theorem set_out_of_bounds {ki : CStr → Nat → Nat} {t : shash_table_t} {l : List Nat}
    {cs : List (List Nat)} {log : List (CStr × CStr)} {a : set_allocs} {k : CStr}
    (hinv : Inv ki t l cs log) (hfresh : ∀ x ∈ l, key_at t.mem x ≠ k) (hk : k ≠ [])
    (h1 : a.value_dup = true) (h2 : a.node = true) (h3 : a.key_dup = true)
    (hj : t.size ≤ ki k t.size) (v : CStr) :
    shash_table_set ki a (some t) (some k) (some v) = none := by
  have hfind := set_find_inv hinv k
  rw [find_none_of_fresh.mpr hfresh] at hfind
  have hb : t.array[ki k t.size]? = none := by
    rw [List.getElem?_eq_none_iff, hinv.array_len]
    exact hj
  simp [shash_table_set, hk, h1, h2, h3, hfind, hb]

/-- Whatever its arguments and allocations, a call of `shash_table_set` that returns
leaves a container that satisfies the invariant, for the history extended by the call. -/
theorem set_inv {ki : CStr → Nat → Nat} {t : shash_table_t} {l : List Nat}
    {cs : List (List Nat)} {log : List (CStr × CStr)} {a : set_allocs}
    {key value : Option CStr} {r : Int} {ht' : Option shash_table_t}
    (hinv : Inv ki t l cs log)
    (hset : shash_table_set ki a (some t) key value = some (r, ht')) :
    ∃ t' l' cs', ht' = some t' ∧ Inv ki t' l' cs' (record log key value r) ∧
      (r = 0 → t' = t) ∧ (r = 0 ∨ r = 1) ∧ t'.size = t.size := by
  have unchanged : shash_table_set ki a (some t) key value = some (0, some t) →
      ∃ t' l' cs', ht' = some t' ∧ Inv ki t' l' cs' (record log key value r) ∧
        (r = 0 → t' = t) ∧ (r = 0 ∨ r = 1) ∧ t'.size = t.size := by
    intro h
    rw [h] at hset
    simp only [Option.some.injEq, Prod.mk.injEq] at hset
    obtain ⟨hr, ht⟩ := hset
    subst hr ht
    refine ⟨t, l, cs, rfl, ?_, fun _ => rfl, Or.inl rfl, rfl⟩
    have : record log key value 0 = log := by
      cases key <;> cases value <;> simp [record]
    rw [this]
    exact hinv
  cases key with
  | none => exact unchanged (set_null_key ki a _ _)
  | some k =>
    cases value with
    | none => exact unchanged (set_null_value ki a _ _)
    | some v =>
      by_cases hk : k = []
      · subst hk
        exact unchanged (set_empty_key ki a _ _)
      · by_cases h1 : a.value_dup = false
        · exact unchanged (set_value_dup_fail ki h1 _ _ _)
        · have h1' : a.value_dup = true := by simpa using h1
          cases hfind : l.find? (fun x => decide (key_at t.mem x = k)) with
          | some p =>
            obtain ⟨n, _, _, hs, hinv'⟩ := set_update (v := v) hinv hk h1' hfind
            rw [hs] at hset
            simp only [Option.some.injEq, Prod.mk.injEq] at hset
            obtain ⟨hr, ht⟩ := hset
            subst hr ht
            exact ⟨_, l, cs, rfl, by simpa [record] using hinv', by simp, Or.inr rfl, rfl⟩
          | none =>
            have hfresh := find_none_of_fresh.mp hfind
            by_cases h23 : a.node = false ∨ a.key_dup = false
            · exact unchanged (set_node_fail hinv hfresh h23 v)
            · have h2 : a.node = true := by
                cases hh : a.node
                · exact absurd (Or.inl hh) h23
                · rfl
              have h3 : a.key_dup = true := by
                cases hh : a.key_dup
                · exact absurd (Or.inr hh) h23
                · rfl
              cases hb : t.array[ki k t.size]? with
              | none =>
                have hj : t.size ≤ ki k t.size := by
                  have := List.getElem?_eq_none_iff.mp hb
                  rwa [hinv.array_len] at this
                rw [set_out_of_bounds hinv hfresh hk h1' h2 h3 hj v] at hset
                simp at hset
              | some b =>
                obtain ⟨t', pre, post, cj, hs, _, hsp, _, hinv'⟩ :=
                  set_insert (v := v) hinv hk h1' h2 h3 hfresh hb
                rw [hs] at hset
                simp only [Option.some.injEq, Prod.mk.injEq] at hset
                obtain ⟨hr, ht⟩ := hset
                subst hr ht
                exact ⟨_, _, _, rfl, by simpa [record] using hinv', by simp, Or.inr rfl, hsp.size⟩

theorem create_inv (ki : CStr → Nat → Nat) {ok_ht ok_array : Bool} {size : Nat}
    {t : shash_table_t} (h : shash_table_create ok_ht ok_array size = some (some t)) :
    t = ⟨size, List.replicate size none, none, none, []⟩ ∧
      Inv ki t [] (List.replicate size []) [] := by
  have ht : t = ⟨size, List.replicate size none, none, none, []⟩ := by
    unfold shash_table_create at h
    split at h
    · simp at h
    · split at h
      · simp at h
      · split at h
        · simp at h
        · simp only [Option.some.injEq] at h
          exact h.symm
  subst ht
  refine ⟨rfl, ?_⟩
  refine ⟨by simp, rfl, rfl, List.Pairwise.nil, by simp, by simp, ?_, ?_, ?_, ?_⟩
  · intro i b c hb hc
    have hb' : b = none := List.eq_of_mem_replicate (List.getElem?_mem hb)
    have hc' : c = [] := List.eq_of_mem_replicate (List.getElem?_mem hc)
    subst hb' hc'
    rfl
  · intro i c hc x hx
    have hc' : c = [] := List.eq_of_mem_replicate (List.getElem?_mem hc)
    subst hc'
    simp at hx
  · have : (List.replicate size ([] : List Nat)).flatten = [] := by
      induction size with
      | zero => rfl
      | succ n ih => simp [List.replicate_succ]
    rw [this]
  · intro k v
    simp [last_set]

/-- A container that can be reached satisfies the invariant. -/
theorem reach_inv {ki : CStr → Nat → Nat} {size : Nat} {t : shash_table_t}
    {log : List (CStr × CStr)} (h : Reach ki size t log) :
    t.size = size ∧ ∃ l cs, Inv ki t l cs log := by
  induction h with
  | create hc =>
    obtain ⟨ht, hinv⟩ := create_inv ki hc
    exact ⟨by rw [ht], _, _, hinv⟩
  | @set t t' log a key value r _ hset ih =>
    obtain ⟨hsize, l, cs, hinv⟩ := ih
    obtain ⟨t'', l', cs', ht, hinv', _, _, hsz⟩ := set_inv hinv hset
    cases ht
    exact ⟨hsz.trans hsize, l', cs', hinv'⟩

/-! ## What the observations of a container are, under the invariant -/

section observations

variable {ki : CStr → Nat → Nat} {t : shash_table_t} {l : List Nat}
  {cs : List (List Nat)} {log : List (CStr × CStr)}

theorem Inv.length_le (hinv : Inv ki t l cs log) : l.length ≤ t.mem.length :=
  seg_length_le hinv.fwd hinv.nodup

theorem spine_inv (hinv : Inv ki t l cs log) : spine t = some l :=
  walk_of_seg hinv.fwd hinv.length_le

theorem spine_rev_inv (hinv : Inv ki t l cs log) : spine_rev t = some l.reverse :=
  walk_of_seg hinv.bwd (by simpa using hinv.length_le)

theorem entries_inv (hinv : Inv ki t l cs log) :
    entries t = some (l.map (entry_at t.mem)) := by
  simp [entries, spine_inv hinv]

theorem keys_inv (hinv : Inv ki t l cs log) : keys t = some (l.map (key_at t.mem)) := by
  simp [keys, spine_inv hinv]

theorem chains_of_seg {mem : List shash_node_t} :
    ∀ {arr : List (Option Nat)} {cs : List (List Nat)}, cs.length = arr.length →
      (∀ (i : Nat) (b : Option Nat) (c : List Nat), arr[i]? = some b → cs[i]? = some c →
        Seg shash_node_t.next mem b c none ∧ c.length ≤ mem.length) →
      chains mem arr = some cs
  | [], [], _, _ => rfl
  | [], _ :: _, h, _ => by simp at h
  | _ :: _, [], h, _ => by simp at h
  | b :: bs, c :: cs, h, hseg => by
    have h0 := hseg 0 b c (by simp) (by simp)
    have hrest : chains mem bs = some cs := by
      refine chains_of_seg (by simpa using h) ?_
      intro i b' c' hb' hc'
      exact hseg (i + 1) b' c' (by simpa using hb') (by simpa using hc')
    simp only [chains, walk_of_seg h0.1 h0.2, hrest]

theorem bucket_chains_inv (hinv : Inv ki t l cs log) : bucket_chains t = some cs := by
  refine chains_of_seg hinv.chains_len ?_
  intro i b c hb hc
  refine ⟨hinv.chain i b c hb hc, ?_⟩
  have hsub : c.Sublist cs.flatten := List.sublist_flatten_of_mem (List.getElem?_mem hc)
  calc c.length ≤ cs.flatten.length := hsub.length_le
    _ = l.length := hinv.perm.length_eq
    _ ≤ t.mem.length := hinv.length_le

theorem bucket_keys_inv (hinv : Inv ki t l cs log) :
    bucket_keys t = some (cs.flatten.map (key_at t.mem)) := by
  simp [bucket_keys, bucket_chains_inv hinv]

theorem print_inv (hinv : Inv ki t l cs log) :
    shash_table_print (some t) = some (fmt_table (l.map (entry_at t.mem))) := by
  simp only [shash_table_print, print_loop_seg hinv.fwd hinv.length_le, fmt_table]

theorem print_rev_inv (hinv : Inv ki t l cs log) :
    shash_table_print_rev (some t) = some (fmt_table (l.map (entry_at t.mem)).reverse) := by
  have hlen : l.reverse.length ≤ t.mem.length := by simpa using hinv.length_le
  simp only [shash_table_print_rev, print_loop_seg hinv.bwd hlen, fmt_table, List.map_reverse]

theorem Inv.key_index_lt (hinv : Inv ki t l cs log) {x : Nat} (hx : x ∈ l) :
    ki (key_at t.mem x) t.size < t.size := by
  have hx' : x ∈ cs.flatten := hinv.perm.symm.subset hx
  obtain ⟨c, hc, hxc⟩ := List.mem_flatten.mp hx'
  obtain ⟨i, hi⟩ := List.getElem?_of_mem hc
  rw [hinv.placed i c hi x hxc, ← hinv.array_len, ← hinv.chains_len]
  exact (List.getElem?_eq_some_iff.mp hi).1

theorem Inv.mem_of_last_set (hinv : Inv ki t l cs log) {k v : CStr}
    (h : last_set log k = some v) :
    ∃ x n, x ∈ l ∧ t.mem[x]? = some n ∧ n.key = k ∧ n.value = v := by
  obtain ⟨x, hx, hxe⟩ := List.mem_map.mp ((hinv.model k v).mpr h)
  obtain ⟨n, hn⟩ := seg_valid hinv.fwd x hx
  rw [entry_at_of_get hn] at hxe
  simp only [Prod.mk.injEq] at hxe
  exact ⟨x, n, hx, hn, hxe.1, hxe.2⟩

/-- On a container that satisfies the invariant, `shash_table_get` returns the value of
the latest successful `set` on the key, and `NULL` when there was none. -/
theorem get_inv (hinv : Inv ki t l cs log) {k : CStr} (hk : k ≠ []) :
    shash_table_get ki (some t) (some k) = some (last_set log k) := by
  have hfind : get_find t.mem k t.mem.length t.shead =
      some (l.find? (fun x => decide (key_at t.mem x = k))) := by
    rw [get_find_eq_set_find]
    exact set_find_inv hinv k
  cases hf : l.find? (fun x => decide (key_at t.mem x = k)) with
  | none =>
    have hfresh := find_none_of_fresh.mp hf
    have hlast : last_set log k = none := by
      cases hl : last_set log k with
      | none => rfl
      | some v =>
        obtain ⟨x, n, hx, hn, hnk, _⟩ := hinv.mem_of_last_set hl
        exact absurd (by rw [key_at_of_get hn, hnk]) (hfresh x hx)
    rw [hf] at hfind
    rw [hlast]
    simp only [shash_table_get, hk, hfind, if_false]
    split <;> rfl
  | some p =>
    have hpl : p ∈ l := List.mem_of_find?_eq_some hf
    have hpk : key_at t.mem p = k := by simpa using List.find?_some hf
    obtain ⟨n, hn⟩ := seg_valid hinv.fwd p hpl
    have hmem : (k, n.value) ∈ l.map (entry_at t.mem) := by
      refine List.mem_map.mpr ⟨p, hpl, ?_⟩
      rw [entry_at_of_get hn, ← hpk, key_at_of_get hn]
    have hlast : last_set log k = some n.value := (hinv.model k n.value).mp hmem
    have hlt : ¬ ki k t.size ≥ t.size := by
      have := hinv.key_index_lt hpl
      rw [hpk] at this
      omega
    rw [hf] at hfind
    rw [hlast]
    simp only [shash_table_get, hk, hfind, hlt, hn, if_false]

end observations

/-! ## Successful calls -/

/-- A call with a non-empty key whose allocations succeed and whose bucket index is in
range returns 1 and records the binding. -/
theorem set_ok {ki : CStr → Nat → Nat} {t : shash_table_t} {l : List Nat}
    {cs : List (List Nat)} {log : List (CStr × CStr)} {k : CStr}
    (hinv : Inv ki t l cs log) (hk : k ≠ []) (hj : ki k t.size < t.size) (v : CStr) :
    ∃ t' l' cs', shash_table_set ki all_ok (some t) (some k) (some v) = some (1, some t') ∧
      Inv ki t' l' cs' ((k, v) :: log) ∧ t'.size = t.size := by
  cases hfind : l.find? (fun x => decide (key_at t.mem x = k)) with
  | some p =>
    obtain ⟨n, _, _, hs, hinv'⟩ := set_update (a := all_ok) (v := v) hinv hk rfl hfind
    exact ⟨_, l, cs, hs, hinv', rfl⟩
  | none =>
    have hfresh := find_none_of_fresh.mp hfind
    have hjlt : ki k t.size < t.array.length := by
      rw [hinv.array_len]
      exact hj
    obtain ⟨t', pre, post, cj, hs, _, hsp, _, hinv'⟩ :=
      set_insert (a := all_ok) (v := v) hinv hk rfl rfl rfl hfresh
        (List.getElem?_eq_getElem hjlt)
    exact ⟨t', _, _, hs, hinv', hsp.size⟩

theorem set_all_inv {ki : CStr → Nat → Nat} :
    ∀ {bs : List (CStr × CStr)} {t : shash_table_t} {l : List Nat} {cs : List (List Nat)}
      {log : List (CStr × CStr)}, Inv ki t l cs log →
      (∀ b ∈ bs, b.1 ≠ [] ∧ ki b.1 t.size < t.size) →
      ∃ t' l' cs', set_all ki t bs = some t' ∧ Inv ki t' l' cs' (bs.reverse ++ log) ∧
        t'.size = t.size
  | [], t, l, cs, log, hinv, _ => ⟨t, l, cs, rfl, by simpa using hinv, rfl⟩
  | (k, v) :: bs, t, l, cs, log, hinv, hbs => by
    obtain ⟨hk, hj⟩ := hbs (k, v) (List.mem_cons_self _ _)
    obtain ⟨t1, l1, cs1, hs, hinv1, hsz⟩ := set_ok hinv hk hj v
    have hbs' : ∀ b ∈ bs, b.1 ≠ [] ∧ ki b.1 t1.size < t1.size := by
      intro b hb
      rw [hsz]
      exact hbs b (List.mem_cons_of_mem _ hb)
    obtain ⟨t', l', cs', hall, hinv', hsz'⟩ := set_all_inv hinv1 hbs'
    refine ⟨t', l', cs', ?_, ?_, hsz'.trans hsz⟩
    · simp only [set_all, hs, hall]
    · simpa using hinv'

theorem last_set_eq_none_iff {log : List (CStr × CStr)} {k : CStr} :
    last_set log k = none ↔ ∀ v, (k, v) ∉ log := by
  induction log with
  | nil => simp [last_set]
  | cons e log ih =>
    obtain ⟨k', v'⟩ := e
    simp only [last_set]
    by_cases hkk : k' = k
    · subst hkk
      simp only [if_true]
      constructor
      · intro h
        simp at h
      · intro h
        exact absurd (List.mem_cons_self _ _) (h v')
    · simp only [hkk, if_false, ih, List.mem_cons, Prod.mk.injEq, not_or, not_and]
      constructor
      · intro h v
        exact ⟨fun hc => absurd hc.symm hkk, h v⟩
      · intro h v
        exact (h v).2

theorem last_set_of_nodup {log : List (CStr × CStr)} (hnd : (log.map Prod.fst).Nodup)
    (k v : CStr) : last_set log k = some v ↔ (k, v) ∈ log := by
  induction log with
  | nil => simp [last_set]
  | cons e log ih =>
    obtain ⟨k', v'⟩ := e
    simp only [List.map_cons, List.nodup_cons] at hnd
    simp only [last_set, List.mem_cons, Prod.mk.injEq]
    by_cases hkk : k' = k
    · subst hkk
      simp only [if_true, Option.some.injEq, true_and]
      constructor
      · intro h
        exact Or.inl h.symm
      · rintro (h | h)
        · exact h.symm
        · exact absurd (List.mem_map.mpr ⟨(k', v), h, rfl⟩) hnd.1
    · simp only [hkk, if_false, ih hnd.2]
      constructor
      · intro h
        exact Or.inr h
      · rintro (h | h)
        · exact absurd h.1.symm hkk
        · exact h

/-- Two sequences of bindings in strictly ascending key order with the same members are
equal. -/
theorem sorted_entries_unique {es₁ es₂ : List (CStr × CStr)}
    (h₁ : (es₁.map Prod.fst).Pairwise (fun a b => strcmp a b < 0))
    (h₂ : (es₂.map Prod.fst).Pairwise (fun a b => strcmp a b < 0))
    (hmem : ∀ e, e ∈ es₁ ↔ e ∈ es₂) : es₁ = es₂ := by
  have hirr : ∀ a : CStr, ¬ strcmp a a < 0 := by
    intro a
    rw [strcmp_self]
    decide
  have s₁ : es₁.Pairwise (fun a b : CStr × CStr => strcmp a.1 b.1 < 0) :=
    List.pairwise_map.mp h₁
  have s₂ : es₂.Pairwise (fun a b : CStr × CStr => strcmp a.1 b.1 < 0) :=
    List.pairwise_map.mp h₂
  have hne : ∀ {a b : CStr × CStr}, strcmp a.1 b.1 < 0 → a ≠ b := by
    intro a b hab heq
    subst heq
    exact hirr _ hab
  have n₁ : es₁.Nodup := s₁.imp hne
  have n₂ : es₂.Nodup := s₂.imp hne
  have hperm : es₁.Perm es₂ := (List.perm_ext_iff_of_nodup n₁ n₂).mpr hmem
  have hanti : IsAntisymm (CStr × CStr) (fun a b => strcmp a.1 b.1 < 0) :=
    ⟨fun a b hab hba => absurd (strcmp_trans _ _ _ hab hba) (hirr _)⟩
  exact List.eq_of_perm_of_sorted hperm s₁ s₂

theorem Inv.keys_sorted {ki : CStr → Nat → Nat} {t : shash_table_t} {l : List Nat}
    {cs : List (List Nat)} {log : List (CStr × CStr)} (hinv : Inv ki t l cs log) :
    ((l.map (entry_at t.mem)).map Prod.fst).Pairwise (fun a b => strcmp a b < 0) := by
  rw [List.map_map, List.pairwise_map]
  exact hinv.sorted

/-! ## Sample runs -/

theorem reach_table4 (ki : CStr → Nat → Nat) : Reach ki 4 table4 [] :=
  @Reach.create ki 4 true true table4 (by decide)

/-! ## Round trip, ordering, failure and return value -/

/-- C1. Round trip: on a container reached from `shash_table_create(size)` by calls of
`shash_table_set`, when `shash_table_set(t, k, v)` with a non-empty key returns success (a
value other than 0), `shash_table_get(t, k)` on the container it leaves returns `v`,
whether `k` was present before or not.  This holds for every `size`. -/
theorem round_trip_set_get (ki : CStr → Nat → Nat) (size : Nat) (t : shash_table_t)
    (log : List (CStr × CStr)) (a : set_allocs) (k v : CStr) (r : Int)
    (ht' : Option shash_table_t) (hreach : Reach ki size t log) (hk : k ≠ [])
    (hset : shash_table_set ki a (some t) (some k) (some v) = some (r, ht'))
    (hr : r ≠ 0) :
    shash_table_get ki ht' (some k) = some (some v) := by
  obtain ⟨_, l, cs, hinv⟩ := reach_inv hreach
  obtain ⟨t', l', cs', ht, hinv', _, _, _⟩ := set_inv hinv hset
  subst ht
  rw [get_inv hinv' hk]
  simp [record, hr, last_set]

/-- Witness of C1: `set("k", "v")` on the container made by `shash_table_create(4)`. -/
theorem round_trip_set_get_witness :
    Reach sum_index 4 table4 [] ∧ cstr "k" ≠ [] ∧
    shash_table_set sum_index all_ok (some table4) (some (cstr "k")) (some (cstr "v")) =
      some (1, some table4_k) ∧
    shash_table_get sum_index (some table4_k) (some (cstr "k")) = some (some (cstr "v")) :=
  ⟨reach_table4 sum_index, by decide, by decide,
    round_trip_set_get sum_index 4 table4 [] all_ok (cstr "k") (cstr "v") 1 (some table4_k)
      (reach_table4 sum_index) (by decide) (by decide) (by decide)⟩

/-- C2. Sorted order: on a container reached from `shash_table_create` by calls of
`shash_table_set`, the keys met from `shead` along `snext` are strictly ascending for
`strcmp`, which is the lexicographic order of the keys as sequences of unsigned bytes; no
key occurs twice. -/
theorem spine_strictly_ascending (ki : CStr → Nat → Nat) (size : Nat) (t : shash_table_t)
    (log : List (CStr × CStr)) (hreach : Reach ki size t log) :
    ∃ ks, keys t = some ks ∧
      ks.Pairwise (fun a b => strcmp a b < 0) ∧
      ks.Pairwise (fun a b =>
        List.Lex (fun x y : Nat => x < y) (a.map Byte.val) (b.map Byte.val)) ∧
      ks.Nodup := by
  obtain ⟨_, l, cs, hinv⟩ := reach_inv hreach
  have hs : (l.map (key_at t.mem)).Pairwise (fun a b => strcmp a b < 0) :=
    List.pairwise_map.mpr hinv.sorted
  refine ⟨_, keys_inv hinv, hs, ?_, ?_⟩
  · exact hs.imp (fun h => (strcmp_lt_iff_lex _ _).mp h)
  · refine hs.imp ?_
    intro a b hab heq
    subst heq
    rw [strcmp_self] at hab
    exact absurd hab (by decide)

/-- C6. Failure is atomic: for every container (null or not, reachable or not), every key
and value and every outcome of the allocations, a call of `shash_table_set` that returns 0
leaves the container exactly as it was. -/
theorem set_failure_atomic (ki : CStr → Nat → Nat) (a : set_allocs)
    (ht ht' : Option shash_table_t) (key value : Option CStr) (r : Int)
    (hset : shash_table_set ki a ht key value = some (r, ht')) (hr : r = 0) :
    ht' = ht := by
  subst hr
  unfold shash_table_set at hset
  repeat (any_goals (first | split at hset | (dsimp only at hset; split at hset)))
  all_goals first
    | (simp at hset; done)
    | (simp only [Option.some.injEq, Prod.mk.injEq, true_and] at hset; exact hset.symm)

/-- Witness of C6: `set("", "x")` fails and leaves the container as it was, and
`get("")` is absent. -/
theorem set_failure_atomic_witness :
    shash_table_set sum_index all_ok (some table4_k) (some (cstr "")) (some (cstr "x")) =
      some (0, some table4_k) ∧
    (0 : Int) = 0 ∧ some table4_k = some table4_k ∧
    shash_table_get sum_index (some table4_k) (some (cstr "")) = some none :=
  ⟨by decide, rfl,
    set_failure_atomic sum_index all_ok (some table4_k) (some table4_k) (some (cstr ""))
      (some (cstr "x")) 0 (by decide) rfl,
    by decide⟩

/-- C7. Return convention of `shash_table_set`, every allocation succeeding: on a container
that is null or reached from `shash_table_create(size)`, with a `key_index` that maps
into `[0, size)` (which needs `size > 0`), the call returns; it returns 0 exactly when the
container, the key or the value is null or the key is empty, and 1 on every other input,
on the insert path and on the update path alike. -/
theorem set_return_convention (ki : CStr → Nat → Nat) (size : Nat)
    (ht : Option shash_table_t) (key value : Option CStr)
    (hki : ∀ k, ki k size < size)
    (hreach : ∀ t, ht = some t → ∃ log, Reach ki size t log) :
    ∃ r ht', shash_table_set ki all_ok ht key value = some (r, ht') ∧
      (r = 0 ↔ (ht = none ∨ key = none ∨ key = some [] ∨ value = none)) ∧
      (r = 0 ∨ r = 1) := by
  cases ht with
  | none => exact ⟨0, none, set_null_table ki _ _ _, by simp, Or.inl rfl⟩
  | some t =>
    cases key with
    | none => exact ⟨0, some t, set_null_key ki _ _ _, by simp, Or.inl rfl⟩
    | some k =>
      cases value with
      | none => exact ⟨0, some t, set_null_value ki _ _ _, by simp, Or.inl rfl⟩
      | some v =>
        by_cases hk : k = []
        · subst hk
          exact ⟨0, some t, set_empty_key ki _ _ _, by simp, Or.inl rfl⟩
        · obtain ⟨log, hr⟩ := hreach t rfl
          obtain ⟨hsize, l, cs, hinv⟩ := reach_inv hr
          have hj : ki k t.size < t.size := by
            rw [hsize]
            exact hki k
          obtain ⟨t', _, _, hs, _, _⟩ := set_ok hinv hk hj v
          exact ⟨1, some t', hs, by simp [hk], Or.inr rfl⟩

/-- Witness of C7: an insertion and an update both return 1, an empty key returns 0. -/
theorem set_return_convention_witness :
    (∀ k, sum_index k 4 < 4) ∧
    (∃ r ht', shash_table_set sum_index all_ok (some table4) (some (cstr "k"))
        (some (cstr "v")) = some (r, ht') ∧
      (r = 0 ↔ ((some table4 : Option shash_table_t) = none ∨ some (cstr "k") = none ∨
        some (cstr "k") = some [] ∨ some (cstr "v") = none)) ∧ (r = 0 ∨ r = 1)) ∧
    shash_table_set sum_index all_ok (some table4) (some (cstr "k")) (some (cstr "v")) =
      some (1, some table4_k) ∧
    (shash_table_set sum_index all_ok (some table4_k) (some (cstr "k"))
      (some (cstr "w"))).map Prod.fst = some 1 ∧
    (shash_table_set sum_index all_ok (some table4_k) (some (cstr ""))
      (some (cstr "w"))).map Prod.fst = some 0 :=
  have hki : ∀ k, sum_index k 4 < 4 := fun k => Nat.mod_lt _ (by decide)
  ⟨hki,
    set_return_convention sum_index 4 (some table4) (some (cstr "k")) (some (cstr "v")) hki
      (fun t ht => ⟨[], by
        cases ht
        exact reach_table4 sum_index⟩),
    by decide, by decide, by decide⟩

/-- C8. Absent lookups: on a container reached from `shash_table_create(size)` by calls of
`shash_table_set`, `shash_table_get(t, key)` returns, and it returns `NULL` exactly when
the key is null, the key is empty, or no successful `set` with this key has been made; on a
null container it returns `NULL`. -/
theorem get_absent_iff (ki : CStr → Nat → Nat) (size : Nat) (t : shash_table_t)
    (log : List (CStr × CStr)) (key : Option CStr) (hreach : Reach ki size t log) :
    (∃ r, shash_table_get ki (some t) key = some r ∧
      (r = none ↔ (key = none ∨ key = some [] ∨ ∀ k v, key = some k → (k, v) ∉ log))) ∧
    shash_table_get ki none key = some none := by
  obtain ⟨_, l, cs, hinv⟩ := reach_inv hreach
  refine ⟨?_, by simp [shash_table_get]⟩
  cases key with
  | none => exact ⟨none, by simp [shash_table_get], by simp⟩
  | some k =>
    by_cases hk : k = []
    · subst hk
      exact ⟨none, by simp [shash_table_get], by simp⟩
    · refine ⟨last_set log k, get_inv hinv hk, ?_⟩
      rw [last_set_eq_none_iff]
      constructor
      · intro h
        refine Or.inr (Or.inr ?_)
        intro k' v hk'
        cases hk'
        exact h v
      · rintro (h | h | h)
        · simp at h
        · simp only [Option.some.injEq] at h
          exact absurd h hk
        · intro v
          exact h k v rfl

/-- Witness of C8: after `set("k", "v")` the key `"k"` is found and the key `"j"` is not. -/
theorem get_absent_iff_witness :
    Reach sum_index 4 table4_k [(cstr "k", cstr "v")] ∧
    ((∃ r, shash_table_get sum_index (some table4_k) (some (cstr "j")) = some r ∧
      (r = none ↔ (some (cstr "j") = none ∨ some (cstr "j") = some [] ∨
        ∀ k v, some (cstr "j") = some k → (k, v) ∉ [(cstr "k", cstr "v")]))) ∧
    shash_table_get sum_index none (some (cstr "j")) = some none) ∧
    shash_table_get sum_index (some table4_k) (some (cstr "j")) = some none ∧
    shash_table_get sum_index (some table4_k) (some (cstr "k")) = some (some (cstr "v")) :=
  have h : Reach sum_index 4 table4_k [(cstr "k", cstr "v")] :=
    @Reach.set sum_index 4 table4 table4_k [] all_ok (some (cstr "k")) (some (cstr "v")) 1
      (reach_table4 sum_index) (by decide)
  ⟨h, get_absent_iff sum_index 4 table4_k _ (some (cstr "j")) h, by decide, by decide⟩

/-! ## Keys are unique -/

theorem filter_eq_length_one {ks : List CStr} {k : CStr} (hnd : ks.Nodup) (hk : k ∈ ks) :
    (ks.filter (fun a => decide (a = k))).length = 1 := by
  induction ks with
  | nil => simp at hk
  | cons a ks ih =>
    obtain ⟨ha, hnd'⟩ := List.nodup_cons.mp hnd
    by_cases hak : a = k
    · subst hak
      have hnil : ks.filter (fun b => decide (b = a)) = [] := by
        rw [List.filter_eq_nil_iff]
        intro b hb hba
        simp only [decide_eq_true_eq] at hba
        subst hba
        exact ha hb
      simp [List.filter_cons, hnil]
    · have hk' : k ∈ ks := by
        rcases List.mem_cons.mp hk with h | h
        · exact absurd h.symm hak
        · exact h
      simp [List.filter_cons, hak, ih hnd' hk']

theorem Inv.count_key {ki : CStr → Nat → Nat} {t : shash_table_t} {l : List Nat}
    {cs : List (List Nat)} {log : List (CStr × CStr)} (hinv : Inv ki t l cs log)
    {k v : CStr} (h : last_set log k = some v) :
    ((l.map (key_at t.mem)).filter (fun a => decide (a = k))).length = 1 ∧
    ((cs.flatten.map (key_at t.mem)).filter (fun a => decide (a = k))).length = 1 := by
  have hs : (l.map (key_at t.mem)).Pairwise (fun a b => strcmp a b < 0) :=
    List.pairwise_map.mpr hinv.sorted
  have hnd : (l.map (key_at t.mem)).Nodup := by
    refine hs.imp ?_
    intro a b hab heq
    subst heq
    rw [strcmp_self] at hab
    exact absurd hab (by decide)
  obtain ⟨x, n, hx, hn, hnk, _⟩ := hinv.mem_of_last_set h
  have hmem : k ∈ l.map (key_at t.mem) :=
    List.mem_map.mpr ⟨x, hx, by rw [key_at_of_get hn, hnk]⟩
  have h1 := filter_eq_length_one hnd hmem
  refine ⟨h1, ?_⟩
  rw [((hinv.perm.map (key_at t.mem)).filter _).length_eq, h1]

theorem set_same_value {ki : CStr → Nat → Nat} {t : shash_table_t} {l : List Nat}
    {cs : List (List Nat)} {log : List (CStr × CStr)} (hinv : Inv ki t l cs log)
    {k v : CStr} (hk : k ≠ []) (h : last_set log k = some v) (a : set_allocs)
    (ha : a.value_dup = true) :
    shash_table_set ki a (some t) (some k) (some v) = some (1, some t) := by
  obtain ⟨x, m, hx, hm, hmk, hmv⟩ := hinv.mem_of_last_set h
  cases hfind : l.find? (fun x => decide (key_at t.mem x = k)) with
  | none =>
    exact absurd (by rw [key_at_of_get hm, hmk]) (find_none_of_fresh.mp hfind x hx)
  | some p =>
    obtain ⟨n, hn, hnk, hs, _⟩ := set_update (a := a) (v := v) hinv hk ha hfind
    have hpx : p = x := by
      refine key_inj_of_sorted hinv.sorted (List.mem_of_find?_eq_some hfind) hx ?_
      rw [key_at_of_get hn, key_at_of_get hm, hnk, hmk]
    subst hpx
    have hnm : n = m := by
      rw [hn] at hm
      exact Option.some.inj hm
    subst hnm
    have hnode : ({ n with value := v } : shash_node_t) = n := by
      cases n
      simp only [shash_node_t.mk.injEq, true_and, and_true]
      exact hmv.symm
    have hmem : t.mem.set p n = t.mem := by
      refine List.ext_getElem? ?_
      intro i
      rw [List.getElem?_set]
      by_cases hpi : p = i
      · subst hpi
        simp [(List.getElem?_eq_some_iff.mp hn).1, hn]
      · simp [hpi]
    rw [hs, hnode, hmem]

/-- C3. Overwrite keeps keys unique: on a container reached from
`shash_table_create(size)`, with a `key_index` that maps into `[0, size)` and every
allocation succeeding, `set(k, v1)` followed by `set(k, v2)` for a non-empty key both return
1, and afterwards exactly one entry of the spine and exactly one entry of the bucket chains
has the key `k`, and `get(k)` returns `v2`. -/
theorem overwrite_keeps_keys_unique (ki : CStr → Nat → Nat) (size : Nat)
    (t : shash_table_t) (log : List (CStr × CStr)) (k v1 v2 : CStr)
    (hreach : Reach ki size t log) (hki : ∀ k, ki k size < size) (hk : k ≠ []) :
    ∃ t1 t2 ks bks,
      shash_table_set ki all_ok (some t) (some k) (some v1) = some (1, some t1) ∧
      shash_table_set ki all_ok (some t1) (some k) (some v2) = some (1, some t2) ∧
      keys t2 = some ks ∧ (ks.filter (fun a => decide (a = k))).length = 1 ∧
      bucket_keys t2 = some bks ∧ (bks.filter (fun a => decide (a = k))).length = 1 ∧
      shash_table_get ki (some t2) (some k) = some (some v2) := by
  obtain ⟨hsize, l, cs, hinv⟩ := reach_inv hreach
  obtain ⟨t1, l1, cs1, hs1, hinv1, hsz1⟩ := set_ok hinv hk (by rw [hsize]; exact hki k) v1
  obtain ⟨t2, l2, cs2, hs2, hinv2, _⟩ :=
    set_ok hinv1 hk (by rw [hsz1, hsize]; exact hki k) v2
  have hlast : last_set ((k, v2) :: (k, v1) :: log) k = some v2 := by simp [last_set]
  obtain ⟨hc1, hc2⟩ := hinv2.count_key hlast
  refine ⟨t1, t2, _, _, hs1, hs2, keys_inv hinv2, hc1, bucket_keys_inv hinv2, hc2, ?_⟩
  rw [get_inv hinv2 hk, hlast]

/-- Witness of C3: `set("k", "v1"); set("k", "v2")` on an empty container gives
`get("k") = "v2"` and a spine of length 1. -/
theorem overwrite_keeps_keys_unique_witness :
    Reach sum_index 4 table4 [] ∧ (∀ k, sum_index k 4 < 4) ∧ cstr "k" ≠ [] ∧
    (∃ t1 t2 ks bks,
      shash_table_set sum_index all_ok (some table4) (some (cstr "k")) (some (cstr "v1")) =
        some (1, some t1) ∧
      shash_table_set sum_index all_ok (some t1) (some (cstr "k")) (some (cstr "v2")) =
        some (1, some t2) ∧
      keys t2 = some ks ∧ (ks.filter (fun a => decide (a = cstr "k"))).length = 1 ∧
      bucket_keys t2 = some bks ∧
        (bks.filter (fun a => decide (a = cstr "k"))).length = 1 ∧
      shash_table_get sum_index (some t2) (some (cstr "k")) = some (some (cstr "v2"))) ∧
    (set_all sum_index table4 [(cstr "k", cstr "v1"), (cstr "k", cstr "v2")]).bind spine =
      some [0] ∧
    (set_all sum_index table4 [(cstr "k", cstr "v1"), (cstr "k", cstr "v2")]).bind
      (fun t => shash_table_get sum_index (some t) (some (cstr "k"))) =
      some (some (cstr "v2")) :=
  have hki : ∀ k, sum_index k 4 < 4 := fun k => Nat.mod_lt _ (by decide)
  ⟨reach_table4 sum_index, hki, by decide,
    overwrite_keeps_keys_unique sum_index 4 table4 [] (cstr "k") (cstr "v1") (cstr "v2")
      (reach_table4 sum_index) hki (by decide),
    by decide, by decide⟩

/-- C9. Idempotence of `set`: on a container reached from `shash_table_create(size)`, with
a `key_index` that maps into `[0, size)` and every allocation succeeding, `set(k, v)` for a
non-empty key returns 1, and a second `set(k, v)` returns 1 and leaves the container the
first call made: the same keys on the spine, the same bucket chains, the same bindings
(so the same number of entries), and `get(k)` returns `v`. -/
theorem set_idempotent (ki : CStr → Nat → Nat) (size : Nat)
    (t : shash_table_t) (log : List (CStr × CStr)) (k v : CStr)
    (hreach : Reach ki size t log) (hki : ∀ k, ki k size < size) (hk : k ≠ []) :
    ∃ t1 t2 ks cs es,
      shash_table_set ki all_ok (some t) (some k) (some v) = some (1, some t1) ∧
      shash_table_set ki all_ok (some t1) (some k) (some v) = some (1, some t2) ∧
      keys t1 = some ks ∧ keys t2 = some ks ∧
      bucket_chains t1 = some cs ∧ bucket_chains t2 = some cs ∧
      entries t1 = some es ∧ entries t2 = some es ∧
      t2 = t1 ∧
      shash_table_get ki (some t2) (some k) = some (some v) := by
  obtain ⟨hsize, l, cs, hinv⟩ := reach_inv hreach
  obtain ⟨t1, l1, cs1, hs1, hinv1, hsz1⟩ := set_ok hinv hk (by rw [hsize]; exact hki k) v
  have hlast : last_set ((k, v) :: log) k = some v := by simp [last_set]
  have hs2 := set_same_value hinv1 hk hlast all_ok rfl
  refine ⟨t1, t1, _, _, _, hs1, hs2, keys_inv hinv1, keys_inv hinv1,
    bucket_chains_inv hinv1, bucket_chains_inv hinv1, entries_inv hinv1, entries_inv hinv1,
    rfl, ?_⟩
  rw [get_inv hinv1 hk, hlast]

/-- Witness of C9: `set("k", "v")` twice on an empty container. -/
theorem set_idempotent_witness :
    Reach sum_index 4 table4 [] ∧ (∀ k, sum_index k 4 < 4) ∧ cstr "k" ≠ [] ∧
    (∃ t1 t2 ks cs es,
      shash_table_set sum_index all_ok (some table4) (some (cstr "k")) (some (cstr "v")) =
        some (1, some t1) ∧
      shash_table_set sum_index all_ok (some t1) (some (cstr "k")) (some (cstr "v")) =
        some (1, some t2) ∧
      keys t1 = some ks ∧ keys t2 = some ks ∧
      bucket_chains t1 = some cs ∧ bucket_chains t2 = some cs ∧
      entries t1 = some es ∧ entries t2 = some es ∧
      t2 = t1 ∧
      shash_table_get sum_index (some t2) (some (cstr "k")) = some (some (cstr "v"))) ∧
    shash_table_set sum_index all_ok (some table4_k) (some (cstr "k")) (some (cstr "v")) =
      some (1, some table4_k) :=
  have hki : ∀ k, sum_index k 4 < 4 := fun k => Nat.mod_lt _ (by decide)
  ⟨reach_table4 sum_index, hki, by decide,
    set_idempotent sum_index 4 table4 [] (cstr "k") (cstr "v")
      (reach_table4 sum_index) hki (by decide),
    by decide⟩

/-! ## Runs of several insertions -/

theorem set_ok_result {ki : CStr → Nat → Nat} {t : shash_table_t} {l : List Nat}
    {cs : List (List Nat)} {log : List (CStr × CStr)} {k v : CStr} {r : Int}
    {ht' : Option shash_table_t} (hinv : Inv ki t l cs log) (hk : k ≠ [])
    (hset : shash_table_set ki all_ok (some t) (some k) (some v) = some (r, ht')) :
    r = 1 := by
  by_cases hj : ki k t.size < t.size
  · obtain ⟨t', _, _, hs, _, _⟩ := set_ok hinv hk hj v
    rw [hs] at hset
    simp only [Option.some.injEq, Prod.mk.injEq] at hset
    exact hset.1.symm
  · cases hfind : l.find? (fun x => decide (key_at t.mem x = k)) with
    | some p =>
      obtain ⟨n, _, _, hs, _⟩ := set_update (a := all_ok) (v := v) hinv hk rfl hfind
      rw [hs] at hset
      simp only [Option.some.injEq, Prod.mk.injEq] at hset
      exact hset.1.symm
    | none =>
      rw [set_out_of_bounds hinv (find_none_of_fresh.mp hfind) hk rfl rfl rfl
        (by omega) v] at hset
      simp at hset

theorem reach_set_all_log {ki : CStr → Nat → Nat} {size : Nat} :
    ∀ {bs : List (CStr × CStr)} {t t' : shash_table_t} {log : List (CStr × CStr)},
      Reach ki size t log → (∀ b ∈ bs, b.1 ≠ []) → set_all ki t bs = some t' →
      Reach ki size t' (bs.reverse ++ log)
  | [], t, t', log, h, _, hs => by
    simp only [set_all, Option.some.injEq] at hs
    subst hs
    simpa using h
  | (k, v) :: bs, t, t', log, h, hne, hs => by
    simp only [set_all] at hs
    split at hs
    · rename_i r t1 heq
      obtain ⟨_, l, cs, hinv⟩ := reach_inv h
      have hk : k ≠ [] := hne (k, v) (List.mem_cons_self _ _)
      have hr : r = 1 := set_ok_result hinv hk heq
      subst hr
      have h1 : Reach ki size t1 ((k, v) :: log) := by
        have := Reach.set h heq
        simpa [record] using this
      have := reach_set_all_log h1 (fun b hb => hne b (List.mem_cons_of_mem _ hb)) hs
      simpa using this
    · simp at hs

set_option maxRecDepth 100000 in
theorem reach_table1024 (ki : CStr → Nat → Nat) : Reach ki 1024 table1024 [] :=
  @Reach.create ki 1024 true true table1024 (by decide)

set_option maxRecDepth 100000 in
theorem set_all_three_names :
    set_all sum_index table1024 three_names = some table_names := by decide

theorem reach_table_names : Reach sum_index 1024 table_names (three_names.reverse ++ []) :=
  reach_set_all_log (reach_table1024 sum_index) (by decide) set_all_three_names

set_option maxRecDepth 100000 in
theorem print_table_names : shash_table_print (some table_names) = some (cstr
    "\x7b\x27alex\x27: \x27Alex\x27, \x27betty\x27: \x27Betty\x27, \x27cezar\x27: \x27Cezar\x27\x7d\n") := by
  decide

set_option maxRecDepth 100000 in
theorem print_rev_table_names : shash_table_print_rev (some table_names) = some (cstr
    "\x7b\x27cezar\x27: \x27Cezar\x27, \x27betty\x27: \x27Betty\x27, \x27alex\x27: \x27Alex\x27\x7d\n") := by
  decide

set_option maxRecDepth 100000 in
theorem print_table1024 : shash_table_print (some table1024) = some (cstr "\x7b\x7d\n") ∧
    shash_table_print_rev (some table1024) = some (cstr "\x7b\x7d\n") := by
  decide

/-! ## Printing and the order of insertion -/

/-- C4. Print format: on a container reached from `shash_table_create` by calls of
`shash_table_set`, the text written by `shash_table_print` is an opening brace, the entries
`'key': 'value'` joined by a comma and a space, a closing brace and one newline
(`fmt_table`), where the entries are the current bindings (each key that was set, with the
value of the latest successful `set` on it) in strictly ascending key order; with no entry
the text is the two braces and a newline. -/
theorem print_format (ki : CStr → Nat → Nat) (size : Nat) (t : shash_table_t)
    (log : List (CStr × CStr)) (hreach : Reach ki size t log) :
    ∃ es, entries t = some es ∧
      shash_table_print (some t) = some (fmt_table es) ∧
      (es.map Prod.fst).Pairwise (fun a b => strcmp a b < 0) ∧
      (∀ k v, (k, v) ∈ es ↔ last_set log k = some v) ∧
      (es = [] → shash_table_print (some t) = some (cstr "\x7b\x7d\n")) := by
  obtain ⟨_, l, cs, hinv⟩ := reach_inv hreach
  refine ⟨_, entries_inv hinv, print_inv hinv, hinv.keys_sorted, hinv.model, ?_⟩
  intro hnil
  rw [print_inv hinv, hnil]
  rfl

/-- Witness of C4: `create(1024); set("betty","Betty"); set("alex","Alex");
set("cezar","Cezar")` prints the three entries in ascending key order, and the empty
container prints the two braces. -/
theorem print_format_witness :
    Reach sum_index 1024 table_names (three_names.reverse ++ []) ∧
    (∃ es, entries table_names = some es ∧
      shash_table_print (some table_names) = some (fmt_table es) ∧
      (es.map Prod.fst).Pairwise (fun a b => strcmp a b < 0) ∧
      (∀ k v, (k, v) ∈ es ↔ last_set (three_names.reverse ++ []) k = some v) ∧
      (es = [] → shash_table_print (some table_names) = some (cstr "\x7b\x7d\n"))) ∧
    shash_table_print (some table_names) = some (cstr
      "\x7b\x27alex\x27: \x27Alex\x27, \x27betty\x27: \x27Betty\x27, \x27cezar\x27: \x27Cezar\x27\x7d\n") ∧
    shash_table_print (some table1024) = some (cstr "\x7b\x7d\n") :=
  ⟨reach_table_names, print_format sum_index 1024 table_names _ reach_table_names,
    print_table_names, print_table1024.1⟩

/-- C5. Reverse print: on a container reached from `shash_table_create` by calls of
`shash_table_set`, `shash_table_print_rev` writes the text of `shash_table_print` with the
sequence of entries reversed (descending key order; the same separators, braces and
newline); on a container with no entry it writes the two braces and a newline. -/
theorem print_rev_format (ki : CStr → Nat → Nat) (size : Nat) (t : shash_table_t)
    (log : List (CStr × CStr)) (hreach : Reach ki size t log) :
    ∃ es, entries t = some es ∧
      shash_table_print (some t) = some (fmt_table es) ∧
      shash_table_print_rev (some t) = some (fmt_table es.reverse) ∧
      (es.reverse.map Prod.fst).Pairwise (fun a b => strcmp b a < 0) ∧
      (es = [] → shash_table_print_rev (some t) = some (cstr "\x7b\x7d\n")) := by
  obtain ⟨_, l, cs, hinv⟩ := reach_inv hreach
  refine ⟨_, entries_inv hinv, print_inv hinv, print_rev_inv hinv, ?_, ?_⟩
  · rw [List.map_reverse, List.pairwise_reverse]
    exact hinv.keys_sorted
  · intro hnil
    rw [print_rev_inv hinv, hnil]
    rfl

/-- Witness of C5: the container of the first scenario prints cezar, betty, alex. -/
theorem print_rev_format_witness :
    Reach sum_index 1024 table_names (three_names.reverse ++ []) ∧
    (∃ es, entries table_names = some es ∧
      shash_table_print (some table_names) = some (fmt_table es) ∧
      shash_table_print_rev (some table_names) = some (fmt_table es.reverse) ∧
      (es.reverse.map Prod.fst).Pairwise (fun a b => strcmp b a < 0) ∧
      (es = [] → shash_table_print_rev (some table_names) = some (cstr "\x7b\x7d\n"))) ∧
    shash_table_print_rev (some table_names) = some (cstr
      "\x7b\x27cezar\x27: \x27Cezar\x27, \x27betty\x27: \x27Betty\x27, \x27alex\x27: \x27Alex\x27\x7d\n") ∧
    shash_table_print_rev (some table1024) = some (cstr "\x7b\x7d\n") :=
  ⟨reach_table_names, print_rev_format sum_index 1024 table_names _ reach_table_names,
    print_rev_table_names, print_table1024.2⟩

/-- C10. The order of insertion does not matter: for bindings with pairwise distinct
non-empty keys, any two orders of inserting them into the container made by
`shash_table_create(size)`, with any `key_index` that maps into `[0, size)` (also one that
sends every key to the same bucket) and every allocation succeeding, give the same
sequence of bindings on the spine, namely the bindings in strictly ascending key order, and
so the same texts of `shash_table_print` and `shash_table_print_rev`. -/
theorem insertion_order_irrelevant (ki : CStr → Nat → Nat) (size : Nat)
    (ok_ht ok_array : Bool) (t0 : shash_table_t) (bs₁ bs₂ : List (CStr × CStr))
    (hcreate : shash_table_create ok_ht ok_array size = some (some t0))
    (hki : ∀ k, ki k size < size) (hperm : bs₁.Perm bs₂)
    (hnd : (bs₁.map Prod.fst).Nodup) (hne : ∀ b ∈ bs₁, b.1 ≠ []) :
    ∃ t₁ t₂ es, set_all ki t0 bs₁ = some t₁ ∧ set_all ki t0 bs₂ = some t₂ ∧
      entries t₁ = some es ∧ entries t₂ = some es ∧
      (es.map Prod.fst).Pairwise (fun a b => strcmp a b < 0) ∧
      (∀ e, e ∈ es ↔ e ∈ bs₁) ∧
      shash_table_print (some t₁) = some (fmt_table es) ∧
      shash_table_print (some t₂) = some (fmt_table es) ∧
      shash_table_print_rev (some t₁) = some (fmt_table es.reverse) ∧
      shash_table_print_rev (some t₂) = some (fmt_table es.reverse) := by
  obtain ⟨ht0, hinv0⟩ := create_inv ki hcreate
  have hsz : t0.size = size := by rw [ht0]
  have hb₁ : ∀ b ∈ bs₁, b.1 ≠ [] ∧ ki b.1 t0.size < t0.size := by
    intro b hb
    rw [hsz]
    exact ⟨hne b hb, hki b.1⟩
  have hb₂ : ∀ b ∈ bs₂, b.1 ≠ [] ∧ ki b.1 t0.size < t0.size :=
    fun b hb => hb₁ b (hperm.symm.subset hb)
  obtain ⟨t₁, l₁, cs₁, hs₁, hinv₁, _⟩ := set_all_inv hinv0 hb₁
  obtain ⟨t₂, l₂, cs₂, hs₂, hinv₂, _⟩ := set_all_inv hinv0 hb₂
  have hnd₁ : ((bs₁.reverse ++ []).map Prod.fst).Nodup := by
    simpa using hnd
  have hnd₂ : ((bs₂.reverse ++ []).map Prod.fst).Nodup := by
    have : (bs₂.map Prod.fst).Nodup := (hperm.map Prod.fst).nodup_iff.mp hnd
    simpa using this
  have hm₁ : ∀ e, e ∈ l₁.map (entry_at t₁.mem) ↔ e ∈ bs₁ := by
    rintro ⟨k, v⟩
    rw [hinv₁.model k v, last_set_of_nodup hnd₁]
    simp
  have hm₂ : ∀ e, e ∈ l₂.map (entry_at t₂.mem) ↔ e ∈ bs₁ := by
    rintro ⟨k, v⟩
    rw [hinv₂.model k v, last_set_of_nodup hnd₂]
    simp only [List.append_nil, List.mem_reverse]
    exact hperm.symm.mem_iff
  have heq : l₂.map (entry_at t₂.mem) = l₁.map (entry_at t₁.mem) :=
    sorted_entries_unique hinv₂.keys_sorted hinv₁.keys_sorted
      (fun e => (hm₂ e).trans (hm₁ e).symm)
  refine ⟨t₁, t₂, l₁.map (entry_at t₁.mem), hs₁, hs₂, entries_inv hinv₁, ?_,
    hinv₁.keys_sorted, hm₁, print_inv hinv₁, ?_, print_rev_inv hinv₁, ?_⟩
  · rw [entries_inv hinv₂, heq]
  · rw [print_inv hinv₂, heq]
  · rw [print_rev_inv hinv₂, heq]

/-- Witness of C10: with every key in bucket 0, inserting c, a, b or a, b, c gives the
forward order a, b, c and the reverse order c, b, a. -/
theorem insertion_order_irrelevant_witness :
    shash_table_create true true 4 = some (some table4) ∧ (∀ k, zero_index k 4 < 4) ∧
    cab.Perm abc ∧ (cab.map Prod.fst).Nodup ∧ (∀ b ∈ cab, b.1 ≠ []) ∧
    (∃ t₁ t₂ es, set_all zero_index table4 cab = some t₁ ∧
      set_all zero_index table4 abc = some t₂ ∧
      entries t₁ = some es ∧ entries t₂ = some es ∧
      (es.map Prod.fst).Pairwise (fun a b => strcmp a b < 0) ∧
      (∀ e, e ∈ es ↔ e ∈ cab) ∧
      shash_table_print (some t₁) = some (fmt_table es) ∧
      shash_table_print (some t₂) = some (fmt_table es) ∧
      shash_table_print_rev (some t₁) = some (fmt_table es.reverse) ∧
      shash_table_print_rev (some t₂) = some (fmt_table es.reverse)) ∧
    (set_all zero_index table4 cab).bind entries = some abc ∧
    (set_all zero_index table4 cab).bind (fun t => shash_table_print (some t)) =
      some (cstr "\x7b\x27a\x27: \x271\x27, \x27b\x27: \x272\x27, \x27c\x27: \x273\x27\x7d\n") ∧
    (set_all zero_index table4 cab).bind (fun t => shash_table_print_rev (some t)) =
      some (cstr "\x7b\x27c\x27: \x273\x27, \x27b\x27: \x272\x27, \x27a\x27: \x271\x27\x7d\n") :=
  have hperm : cab.Perm abc := by decide
  have hki : ∀ k, zero_index k 4 < 4 := fun _ => Nat.succ_pos 3
  ⟨by decide, hki, hperm, by decide, by decide,
    insertion_order_irrelevant zero_index 4 true true table4 cab abc (by decide)
      hki hperm (by decide) (by decide),
    by decide, by decide, by decide⟩

set_option maxRecDepth 100000 in
theorem keys_table_names :
    keys table_names = some [cstr "alex", cstr "betty", cstr "cezar"] := by
  decide

/-- Witness of C2: after the insertions betty, alex, cezar the keys on the spine are
alex, betty, cezar. -/
theorem spine_strictly_ascending_witness :
    Reach sum_index 1024 table_names (three_names.reverse ++ []) ∧
    (∃ ks, keys table_names = some ks ∧
      ks.Pairwise (fun a b => strcmp a b < 0) ∧
      ks.Pairwise (fun a b =>
        List.Lex (fun x y : Nat => x < y) (a.map Byte.val) (b.map Byte.val)) ∧
      ks.Nodup) ∧
    keys table_names = some [cstr "alex", cstr "betty", cstr "cezar"] :=
  ⟨reach_table_names, spine_strictly_ascending sum_index 1024 table_names _ reach_table_names,
    keys_table_names⟩

/-! ## The documented return value and the bucket count -/

theorem set_result_zero_or_one (ki : CStr → Nat → Nat) (a : set_allocs)
    (ht ht' : Option shash_table_t) (key value : Option CStr) (r : Int)
    (hset : shash_table_set ki a ht key value = some (r, ht')) : r = 0 ∨ r = 1 := by
  unfold shash_table_set at hset
  repeat (any_goals (first | split at hset | (dsimp only at hset; split at hset)))
  all_goals first
    | (simp at hset; done)
    | (simp only [Option.some.injEq, Prod.mk.injEq] at hset; exact Or.inl hset.1.symm)
    | (simp only [Option.some.injEq, Prod.mk.injEq] at hset; exact Or.inr hset.1.symm)

/-- C11. The header comment of `shash_table_set` documents the return value -1 for a call
that does not fail.  The code returns 1: `set("k", "v")` on the container made by
`shash_table_create(4)`, every allocation succeeding, returns 1, and no call whatever
returns -1. -/
theorem set_does_not_return_minus_one :
    shash_table_set sum_index all_ok (some table4) (some (cstr "k")) (some (cstr "v")) =
      some (1, some table4_k) ∧
    (1 : Int) ≠ -1 ∧
    ∀ (ki : CStr → Nat → Nat) (a : set_allocs) (ht ht' : Option shash_table_t)
      (key value : Option CStr) (r : Int),
      shash_table_set ki a ht key value = some (r, ht') → r ≠ -1 := by
  refine ⟨by decide, by decide, ?_⟩
  intro ki a ht ht' key value r hset
  rcases set_result_zero_or_one ki a ht ht' key value r hset with h | h <;> rw [h] <;> decide

/-- C12 as stated fails: `shash_table_create(0)`, when both allocations succeed, returns a
container whose bucket count is 0. -/
theorem create_zero_bucket_count :
    shash_table_create true true 0 = some (some ⟨0, [], none, none, []⟩) ∧
    ¬ 0 < (⟨0, [], none, none, []⟩ : shash_table_t).size := by
  decide

/-- C12, amended. The bucket count is fixed at creation: a container returned by
`shash_table_create(size)` has the bucket count `size` and an array of `size` buckets, so its
bucket count is strictly positive exactly when `size` is; every container reached from it by
calls of `shash_table_set` has the same bucket count, and no further call changes it. -/
theorem bucket_count_fixed (ki : CStr → Nat → Nat) (size : Nat) (t : shash_table_t)
    (log : List (CStr × CStr)) (hreach : Reach ki size t log) :
    t.size = size ∧ t.array.length = size ∧ (0 < t.size ↔ 0 < size) ∧
    (∀ (ok_ht ok_array : Bool) (t0 : shash_table_t),
      shash_table_create ok_ht ok_array size = some (some t0) →
      t0.size = size ∧ t0.array.length = size) ∧
    ∀ (a : set_allocs) (key value : Option CStr) (r : Int) (t' : shash_table_t),
      shash_table_set ki a (some t) key value = some (r, some t') →
      t'.size = t.size ∧ t'.array.length = t.array.length := by
  obtain ⟨hsize, l, cs, hinv⟩ := reach_inv hreach
  refine ⟨hsize, by rw [hinv.array_len, hsize], by rw [hsize], ?_, ?_⟩
  · intro ok_ht ok_array t0 hc
    obtain ⟨ht0, _⟩ := create_inv ki hc
    subst ht0
    simp
  · intro a key value r t' hset
    obtain ⟨t'', l', cs', ht, hinv', _, _, hsz⟩ := set_inv hinv hset
    cases ht
    exact ⟨hsz, by rw [hinv'.array_len, hinv.array_len, hsz]⟩

/-- Witness of C12, amended: the container of the first scenario has 1024 buckets. -/
theorem bucket_count_fixed_witness :
    Reach sum_index 1024 table_names (three_names.reverse ++ []) ∧
    (table_names.size = 1024 ∧ table_names.array.length = 1024 ∧
    (0 < table_names.size ↔ 0 < 1024) ∧
    (∀ (ok_ht ok_array : Bool) (t0 : shash_table_t),
      shash_table_create ok_ht ok_array 1024 = some (some t0) →
      t0.size = 1024 ∧ t0.array.length = 1024) ∧
    ∀ (a : set_allocs) (key value : Option CStr) (r : Int) (t' : shash_table_t),
      shash_table_set sum_index a (some table_names) key value = some (r, some t') →
      t'.size = table_names.size ∧ t'.array.length = table_names.array.length) :=
  ⟨reach_table_names, bucket_count_fixed sum_index 1024 table_names _ reach_table_names⟩

/-! ## Back-links -/

theorem seg_last_link {link : shash_node_t → Option Nat} {mem : List shash_node_t}
    {l : List Nat} {p : Option Nat} {x : Nat} {n : shash_node_t}
    (h : Seg link mem p (l ++ [x]) none) (hn : mem[x]? = some n) : link n = none := by
  obtain ⟨m, _, h2⟩ := seg_append.mp h
  obtain ⟨_, n', hn', hrest⟩ := h2
  rw [hn] at hn'
  cases hn'
  exact hrest

theorem seg_next_link {link : shash_node_t → Option Nat} {mem : List shash_node_t}
    {pre post : List Nat} {p : Option Nat} {x : Nat} {n : shash_node_t}
    (h : Seg link mem p (pre ++ x :: post) none) (hn : mem[x]? = some n) :
    link n = post.head? := by
  obtain ⟨m, _, h2⟩ := seg_append.mp h
  obtain ⟨_, n', hn', hrest⟩ := h2
  rw [hn] at hn'
  cases hn'
  exact seg_head hrest

theorem Inv.head_sprev {ki : CStr → Nat → Nat} {t : shash_table_t} {l : List Nat}
    {cs : List (List Nat)} {log : List (CStr × CStr)} (hinv : Inv ki t l cs log)
    {h : Nat} {n : shash_node_t} (hh : t.shead = some h) (hn : t.mem[h]? = some n) :
    n.sprev = none := by
  have hhead := seg_head hinv.fwd
  rw [hh] at hhead
  cases l with
  | nil => simp at hhead
  | cons x rest =>
    simp only [List.head?_cons, Option.some.injEq] at hhead
    subst hhead
    have hb := hinv.bwd
    rw [List.reverse_cons] at hb
    exact seg_last_link hb hn

theorem Inv.tail_snext {ki : CStr → Nat → Nat} {t : shash_table_t} {l : List Nat}
    {cs : List (List Nat)} {log : List (CStr × CStr)} (hinv : Inv ki t l cs log)
    {x : Nat} {n : shash_node_t} (hx : t.stail = some x) (hn : t.mem[x]? = some n) :
    n.snext = none := by
  have hhead := seg_head hinv.bwd
  rw [hx] at hhead
  cases hl : l.reverse with
  | nil => simp [hl] at hhead
  | cons y rest =>
    rw [hl] at hhead
    simp only [List.head?_cons, Option.some.injEq] at hhead
    subst hhead
    have hf := hinv.fwd
    have hl' : l = rest.reverse ++ [x] := by
      rw [← List.reverse_reverse l, hl, List.reverse_cons]
    rw [hl'] at hf
    exact seg_last_link hf hn

theorem Inv.snext_sprev {ki : CStr → Nat → Nat} {t : shash_table_t} {l : List Nat}
    {cs : List (List Nat)} {log : List (CStr × CStr)} (hinv : Inv ki t l cs log)
    {e f : Nat} {n : shash_node_t} (he : e ∈ l) (hn : t.mem[e]? = some n)
    (hf : n.snext = some f) :
    f ∈ l ∧ ∃ m, t.mem[f]? = some m ∧ m.sprev = some e := by
  obtain ⟨pre, post, hl⟩ := List.append_of_mem he
  have hfw := hinv.fwd
  rw [hl] at hfw
  have hnext := seg_next_link hfw hn
  rw [hf] at hnext
  cases post with
  | nil => simp at hnext
  | cons y post' =>
    simp only [List.head?_cons, Option.some.injEq] at hnext
    subst hnext
    have hfl : f ∈ l := by
      rw [hl]
      simp
    obtain ⟨m, hm⟩ := seg_valid hinv.fwd f hfl
    refine ⟨hfl, m, hm, ?_⟩
    have hb := hinv.bwd
    have hrev : l.reverse = post'.reverse ++ f :: (e :: pre.reverse) := by
      rw [hl]
      simp
    rw [hrev] at hb
    have := seg_next_link hb hm
    simpa using this

/-- C13. Back-links mirror forward links: on a container reached from
`shash_table_create` by calls of `shash_table_set`, the entry at `shead` has `sprev == NULL`,
the entry at `stail` has `snext == NULL`, every entry `e` of the spine with a successor `f`
satisfies `f->sprev == e`, and the entries met from `stail` along `sprev` are those met from
`shead` along `snext` in the reverse order. -/
theorem back_links_mirror (ki : CStr → Nat → Nat) (size : Nat) (t : shash_table_t)
    (log : List (CStr × CStr)) (hreach : Reach ki size t log) :
    ∃ l, spine t = some l ∧ spine_rev t = some l.reverse ∧
      (∀ h n, t.shead = some h → t.mem[h]? = some n → n.sprev = none) ∧
      (∀ x n, t.stail = some x → t.mem[x]? = some n → n.snext = none) ∧
      (∀ e n f, e ∈ l → t.mem[e]? = some n → n.snext = some f →
        ∃ m, t.mem[f]? = some m ∧ m.sprev = some e) := by
  obtain ⟨_, l, cs, hinv⟩ := reach_inv hreach
  refine ⟨l, spine_inv hinv, spine_rev_inv hinv, ?_, ?_, ?_⟩
  · intro h n hh hn
    exact hinv.head_sprev hh hn
  · intro x n hx hn
    exact hinv.tail_snext hx hn
  · intro e n f he hn hf
    exact (hinv.snext_sprev he hn hf).2

set_option maxRecDepth 100000 in
theorem spine_table_names :
    spine table_names = some [1, 0, 2] ∧ spine_rev table_names = some [2, 0, 1] := by
  decide

/-- Witness of C13: in the container of the first scenario the forward walk meets the
entries 1, 0, 2 (alex, betty, cezar) and the backward walk meets 2, 0, 1. -/
theorem back_links_mirror_witness :
    Reach sum_index 1024 table_names (three_names.reverse ++ []) ∧
    (∃ l, spine table_names = some l ∧ spine_rev table_names = some l.reverse ∧
      (∀ h n, table_names.shead = some h → table_names.mem[h]? = some n → n.sprev = none) ∧
      (∀ x n, table_names.stail = some x → table_names.mem[x]? = some n → n.snext = none) ∧
      (∀ e n f, e ∈ l → table_names.mem[e]? = some n → n.snext = some f →
        ∃ m, table_names.mem[f]? = some m ∧ m.sprev = some e)) ∧
    spine table_names = some [1, 0, 2] ∧ spine_rev table_names = some [2, 0, 1] :=
  ⟨reach_table_names, back_links_mirror sum_index 1024 table_names _ reach_table_names,
    spine_table_names⟩

/-! ## Both indexes hold the same entries -/

theorem delete_loop_seg {mem : List shash_node_t} :
    ∀ {l : List Nat} {p : Option Nat} {fuel : Nat} {freed : List Nat},
      Seg shash_node_t.snext mem p l none → l.length ≤ fuel → l.Nodup →
      (∀ x ∈ l, x ∉ freed) → delete_loop mem fuel p freed = some (freed ++ l)
  | [], p, fuel, freed, h, _, _, _ => by
    have : p = none := h
    subst this
    cases fuel <;> simp [delete_loop]
  | x :: xs, p, fuel, freed, h, hf, hnd, hfresh => by
    obtain ⟨hp, n, hn, hrest⟩ := h
    subst hp
    cases fuel with
    | zero => simp at hf
    | succ f =>
      have hlen : xs.length ≤ f := by simpa using hf
      obtain ⟨hx, hnd'⟩ := List.nodup_cons.mp hnd
      have hxf : x ∉ freed := hfresh x (List.mem_cons_self x xs)
      have hfresh' : ∀ y ∈ xs, y ∉ freed ++ [x] := by
        intro y hy hc
        rcases List.mem_append.mp hc with hc | hc
        · exact hfresh y (List.mem_cons_of_mem x hy) hc
        · rw [List.mem_singleton] at hc
          subst hc
          exact hx hy
      simp only [delete_loop, hxf, if_false, hn]
      rw [delete_loop_seg hrest hlen hnd' hfresh']
      simp

theorem delete_inv {ki : CStr → Nat → Nat} {t : shash_table_t} {l : List Nat}
    {cs : List (List Nat)} {log : List (CStr × CStr)} (hinv : Inv ki t l cs log) :
    shash_table_delete (some t) = some l := by
  have := @delete_loop_seg t.mem l t.shead t.mem.length [] hinv.fwd hinv.length_le hinv.nodup
    (by simp)
  simpa [shash_table_delete] using this

/-- C14. Both indexes hold the same entries: on a container reached from
`shash_table_create(size)` by calls of `shash_table_set`, the entries met from `shead` along
`snext` and the entries met from all bucket heads along `next` are the same multiset, and
no entry occurs twice in either; the walk of `shash_table_delete` returns and frees exactly
the entries of the spine, so every entry of the bucket chains exactly once. -/
theorem both_indexes_same_entries (ki : CStr → Nat → Nat) (size : Nat) (t : shash_table_t)
    (log : List (CStr × CStr)) (hreach : Reach ki size t log) :
    ∃ l cs, spine t = some l ∧ bucket_chains t = some cs ∧
      (l : Multiset Nat) = (cs.flatten : Multiset Nat) ∧
      l.Nodup ∧ cs.flatten.Nodup ∧
      shash_table_delete (some t) = some l ∧
      ∀ x ∈ cs.flatten, l.count x = 1 := by
  obtain ⟨_, l, cs, hinv⟩ := reach_inv hreach
  refine ⟨l, cs, spine_inv hinv, bucket_chains_inv hinv, ?_, hinv.nodup, ?_, delete_inv hinv, ?_⟩
  · exact Multiset.coe_eq_coe.mpr hinv.perm.symm
  · exact hinv.perm.nodup_iff.mpr hinv.nodup
  · intro x hx
    exact List.count_eq_one_of_mem hinv.nodup (hinv.perm.subset hx)

theorem set_all_cab : set_all zero_index table4 cab = some table_cab := by decide

theorem reach_table_cab : Reach zero_index 4 table_cab (cab.reverse ++ []) :=
  reach_set_all_log (reach_table4 zero_index) (by decide) set_all_cab

/-- Witness of C14: with every key in bucket 0, after the insertions c, a, b the chain of
bucket 0 holds the entries 2, 1, 0, the spine holds 1, 2, 0, and `shash_table_delete` frees
1, 2, 0. -/
theorem both_indexes_same_entries_witness :
    Reach zero_index 4 table_cab (cab.reverse ++ []) ∧
    (∃ l cs, spine table_cab = some l ∧ bucket_chains table_cab = some cs ∧
      (l : Multiset Nat) = (cs.flatten : Multiset Nat) ∧
      l.Nodup ∧ cs.flatten.Nodup ∧
      shash_table_delete (some table_cab) = some l ∧
      ∀ x ∈ cs.flatten, l.count x = 1) ∧
    spine table_cab = some [1, 2, 0] ∧
    bucket_chains table_cab = some [[2, 1, 0], [], [], []] ∧
    shash_table_delete (some table_cab) = some [1, 2, 0] :=
  ⟨reach_table_cab, both_indexes_same_entries zero_index 4 table_cab _ reach_table_cab,
    by decide, by decide, by decide⟩

/-! ## The two successful paths of `shash_table_set` -/

theorem Inv.fresh_of_last_set_none {ki : CStr → Nat → Nat} {t : shash_table_t} {l : List Nat}
    {cs : List (List Nat)} {log : List (CStr × CStr)} (hinv : Inv ki t l cs log) {k : CStr}
    (h : last_set log k = none) : ∀ x ∈ l, key_at t.mem x ≠ k := by
  intro x hx hxk
  obtain ⟨n, hn⟩ := seg_valid hinv.fwd x hx
  have hmem : (k, n.value) ∈ l.map (entry_at t.mem) := by
    refine List.mem_map.mpr ⟨x, hx, ?_⟩
    rw [entry_at_of_get hn, ← hxk, key_at_of_get hn]
  rw [(hinv.model k n.value).mp hmem] at h
  simp at h

theorem Inv.find_of_last_set_some {ki : CStr → Nat → Nat} {t : shash_table_t} {l : List Nat}
    {cs : List (List Nat)} {log : List (CStr × CStr)} (hinv : Inv ki t l cs log) {k v : CStr}
    (h : last_set log k = some v) :
    ∃ p, l.find? (fun x => decide (key_at t.mem x = k)) = some p := by
  obtain ⟨x, n, hx, hn, hnk, _⟩ := hinv.mem_of_last_set h
  cases hfind : l.find? (fun x => decide (key_at t.mem x = k)) with
  | none => exact absurd (by rw [key_at_of_get hn, hnk]) (find_none_of_fresh.mp hfind x hx)
  | some p => exact ⟨p, rfl⟩

/-- A call that returns a value other than 0 had a non-empty key and a copy of the value. -/
theorem set_success_args {ki : CStr → Nat → Nat} {a : set_allocs} {t : shash_table_t}
    {k v : CStr} {r : Int} {ht' : Option shash_table_t}
    (hset : shash_table_set ki a (some t) (some k) (some v) = some (r, ht')) (hr : r ≠ 0) :
    k ≠ [] ∧ a.value_dup = true := by
  constructor
  · intro hk
    subst hk
    rw [set_empty_key] at hset
    simp only [Option.some.injEq, Prod.mk.injEq] at hset
    exact hr hset.1.symm
  · cases hd : a.value_dup with
    | true => rfl
    | false =>
      rw [set_value_dup_fail ki hd] at hset
      simp only [Option.some.injEq, Prod.mk.injEq] at hset
      exact absurd hset.1.symm hr

/-- A successful call on a key that is not in the container is an insertion. -/
theorem set_success_insert {ki : CStr → Nat → Nat} {t t' : shash_table_t} {l : List Nat}
    {cs : List (List Nat)} {log : List (CStr × CStr)} {a : set_allocs} {k v : CStr}
    {r : Int} (hinv : Inv ki t l cs log)
    (hset : shash_table_set ki a (some t) (some k) (some v) = some (r, some t'))
    (hr : r ≠ 0) (hnew : last_set log k = none) :
    ∃ pre post cj b, l = pre ++ post ∧ Spliced t t' pre post k v (ki k t.size) b ∧
      t.array[ki k t.size]? = some b ∧ cs[ki k t.size]? = some cj ∧
      Inv ki t' (pre ++ t.mem.length :: post)
        (cs.set (ki k t.size) (t.mem.length :: cj)) ((k, v) :: log) := by
  obtain ⟨hk, h1⟩ := set_success_args hset hr
  have hfresh := hinv.fresh_of_last_set_none hnew
  have h23 : ¬ (a.node = false ∨ a.key_dup = false) := by
    intro hc
    rw [set_node_fail hinv hfresh hc v] at hset
    simp only [Option.some.injEq, Prod.mk.injEq] at hset
    exact hr hset.1.symm
  have h2 : a.node = true := by
    cases hh : a.node
    · exact absurd (Or.inl hh) h23
    · rfl
  have h3 : a.key_dup = true := by
    cases hh : a.key_dup
    · exact absurd (Or.inr hh) h23
    · rfl
  cases hb : t.array[ki k t.size]? with
  | none =>
    have hj : t.size ≤ ki k t.size := by
      have := List.getElem?_eq_none_iff.mp hb
      rwa [hinv.array_len] at this
    rw [set_out_of_bounds hinv hfresh hk h1 h2 h3 hj v] at hset
    simp at hset
  | some b =>
    obtain ⟨t'', pre, post, cj, hs, hl, hsp, hcj, hinv'⟩ :=
      set_insert (v := v) hinv hk h1 h2 h3 hfresh hb
    rw [hs] at hset
    simp only [Option.some.injEq, Prod.mk.injEq, true_and] at hset
    obtain ⟨_, ht⟩ := hset
    subst ht
    exact ⟨pre, post, cj, b, hl, hsp, rfl, hcj, hinv'⟩

/-- A successful call on a key that is in the container is an update. -/
theorem set_success_update {ki : CStr → Nat → Nat} {t t' : shash_table_t} {l : List Nat}
    {cs : List (List Nat)} {log : List (CStr × CStr)} {a : set_allocs} {k v v₀ : CStr}
    {r : Int} (hinv : Inv ki t l cs log)
    (hset : shash_table_set ki a (some t) (some k) (some v) = some (r, some t'))
    (hr : r ≠ 0) (hold : last_set log k = some v₀) :
    ∃ p n, p ∈ l ∧ t.mem[p]? = some n ∧ n.key = k ∧ n.value = v₀ ∧
      t' = { t with mem := t.mem.set p { n with value := v } } ∧
      Inv ki t' l cs ((k, v) :: log) := by
  obtain ⟨hk, h1⟩ := set_success_args hset hr
  obtain ⟨p, hfind⟩ := hinv.find_of_last_set_some hold
  obtain ⟨n, hn, hnk, hs, hinv'⟩ := set_update (v := v) hinv hk h1 hfind
  rw [hs] at hset
  simp only [Option.some.injEq, Prod.mk.injEq, true_and] at hset
  obtain ⟨_, ht⟩ := hset
  subst ht
  have hpl : p ∈ l := List.mem_of_find?_eq_some hfind
  have hmem : (k, n.value) ∈ l.map (entry_at t.mem) := by
    refine List.mem_map.mpr ⟨p, hpl, ?_⟩
    rw [entry_at_of_get hn, hnk]
  have hv : n.value = v₀ := by
    have := (hinv.model k n.value).mp hmem
    rw [hold] at this
    exact (Option.some.inj this).symm
  exact ⟨p, n, hpl, hn, hnk, hv, rfl, hinv'⟩

/-! ## Bucket placement and the frame of an update -/

theorem Inv.last_set_of_key_mem {ki : CStr → Nat → Nat} {t : shash_table_t} {l : List Nat}
    {cs : List (List Nat)} {log : List (CStr × CStr)} (hinv : Inv ki t l cs log) {k : CStr}
    {ks : List CStr} (hks : keys t = some ks) (hk : k ∈ ks) :
    ∃ v, last_set log k = some v := by
  rw [keys_inv hinv] at hks
  cases hks
  obtain ⟨x, hx, hxk⟩ := List.mem_map.mp hk
  obtain ⟨n, hn⟩ := seg_valid hinv.fwd x hx
  refine ⟨n.value, (hinv.model k n.value).mp (List.mem_map.mpr ⟨x, hx, ?_⟩)⟩
  rw [entry_at_of_get hn, ← hxk, key_at_of_get hn]

theorem Inv.last_set_of_key_not_mem {ki : CStr → Nat → Nat} {t : shash_table_t}
    {l : List Nat} {cs : List (List Nat)} {log : List (CStr × CStr)}
    (hinv : Inv ki t l cs log) {k : CStr} {ks : List CStr} (hks : keys t = some ks)
    (hk : k ∉ ks) : last_set log k = none := by
  rw [keys_inv hinv] at hks
  cases hks
  cases hl : last_set log k with
  | none => rfl
  | some v =>
    obtain ⟨x, n, hx, hn, hnk, _⟩ := hinv.mem_of_last_set hl
    exact absurd (List.mem_map.mpr ⟨x, hx, by rw [key_at_of_get hn, hnk]⟩) hk

/-- C15. Bucket placement: on a container reached from `shash_table_create(size)` by calls
of `shash_table_set`, every entry of the chain of bucket `i` has a key whose `key_index` is
`i`; and a successful call of `shash_table_set` on a key that is not in the container links
the new entry at the head of the chain of bucket `key_index(key, size)`, in front of the
former head, and leaves the rest of that chain and all other chains as they were. -/
theorem bucket_placement (ki : CStr → Nat → Nat) (size : Nat) (t : shash_table_t)
    (log : List (CStr × CStr)) (hreach : Reach ki size t log) :
    ∃ ks cs, keys t = some ks ∧ bucket_chains t = some cs ∧
      (∀ (i : Nat) (c : List Nat), cs[i]? = some c →
        ∀ x ∈ c, ki (key_at t.mem x) t.size = i) ∧
      ∀ (a : set_allocs) (k v : CStr) (r : Int) (t' : shash_table_t),
        shash_table_set ki a (some t) (some k) (some v) = some (r, some t') → r ≠ 0 →
        k ∉ ks →
        ∃ cj n, cs[ki k t.size]? = some cj ∧
          t'.array = t.array.set (ki k t.size) (some t.mem.length) ∧
          t'.array[ki k t.size]? = some (some t.mem.length) ∧
          t'.mem[t.mem.length]? = some n ∧ n.key = k ∧ n.value = v ∧
          t.array[ki k t.size]? = some n.next ∧
          bucket_chains t' = some (cs.set (ki k t.size) (t.mem.length :: cj)) := by
  obtain ⟨_, l, cs, hinv⟩ := reach_inv hreach
  refine ⟨_, cs, keys_inv hinv, bucket_chains_inv hinv, hinv.placed, ?_⟩
  intro a k v r t' hset hr hk
  have hnew := hinv.last_set_of_key_not_mem (keys_inv hinv) hk
  obtain ⟨pre, post, cj, b, _, hsp, hb, hcj, hinv'⟩ := set_success_insert hinv hset hr hnew
  refine ⟨cj, _, hcj, hsp.array, ?_, hsp.new, rfl, rfl, hb, bucket_chains_inv hinv'⟩
  rw [hsp.array, List.getElem?_set]
  simp [(List.getElem?_eq_some_iff.mp hb).1]

/-- Witness of C15: with every key in bucket 0, after the insertions c, a, b the entries of
bucket 0 are 2, 1, 0; the insertion of the key d links the entry 3 in front of them. -/
theorem bucket_placement_witness :
    Reach zero_index 4 table_cab (cab.reverse ++ []) ∧
    (∃ ks cs, keys table_cab = some ks ∧ bucket_chains table_cab = some cs ∧
      (∀ (i : Nat) (c : List Nat), cs[i]? = some c →
        ∀ x ∈ c, zero_index (key_at table_cab.mem x) table_cab.size = i) ∧
      ∀ (a : set_allocs) (k v : CStr) (r : Int) (t' : shash_table_t),
        shash_table_set zero_index a (some table_cab) (some k) (some v) = some (r, some t') →
        r ≠ 0 → k ∉ ks →
        ∃ cj n, cs[zero_index k table_cab.size]? = some cj ∧
          t'.array = table_cab.array.set (zero_index k table_cab.size)
            (some table_cab.mem.length) ∧
          t'.array[zero_index k table_cab.size]? = some (some table_cab.mem.length) ∧
          t'.mem[table_cab.mem.length]? = some n ∧ n.key = k ∧ n.value = v ∧
          table_cab.array[zero_index k table_cab.size]? = some n.next ∧
          bucket_chains t' = some (cs.set (zero_index k table_cab.size)
            (table_cab.mem.length :: cj))) ∧
    bucket_chains table_cab = some [[2, 1, 0], [], [], []] ∧
    (set_all zero_index table_cab [(cstr "d", cstr "4")]).bind bucket_chains =
      some [[3, 2, 1, 0], [], [], []] :=
  ⟨reach_table_cab, bucket_placement zero_index 4 table_cab _ reach_table_cab,
    by decide, by decide⟩

/-- C17. Update touches only the value: on a container reached from `shash_table_create`,
a successful call of `shash_table_set` on a key that is in the container creates no entry
and writes one field, the value of the entry with this key: the bucket count, the bucket
array, `shead`, `stail`, the number of entries, every other entry, and the key and the three
links of the entry itself are as before, and so are the spine and the bucket chains. -/
theorem update_touches_only_value (ki : CStr → Nat → Nat) (size : Nat) (t t' : shash_table_t)
    (log : List (CStr × CStr)) (a : set_allocs) (k v : CStr) (r : Int) (ks : List CStr)
    (hreach : Reach ki size t log) (hks : keys t = some ks) (hk : k ∈ ks)
    (hset : shash_table_set ki a (some t) (some k) (some v) = some (r, some t'))
    (hr : r ≠ 0) :
    ∃ p n, t.mem[p]? = some n ∧ n.key = k ∧
      t' = { t with mem := t.mem.set p { n with value := v } } ∧
      t'.size = t.size ∧ t'.array = t.array ∧ t'.shead = t.shead ∧ t'.stail = t.stail ∧
      t'.mem.length = t.mem.length ∧
      (∀ x, x ≠ p → t'.mem[x]? = t.mem[x]?) ∧
      t'.mem[p]? = some ⟨n.key, v, n.next, n.sprev, n.snext⟩ ∧
      spine t' = spine t ∧ spine_rev t' = spine_rev t ∧
      bucket_chains t' = bucket_chains t ∧ keys t' = keys t := by
  obtain ⟨_, l, cs, hinv⟩ := reach_inv hreach
  obtain ⟨v₀, hold⟩ := hinv.last_set_of_key_mem hks hk
  obtain ⟨p, n, _, hn, hnk, _, ht', hinv'⟩ := set_success_update hinv hset hr hold
  have hplt : p < t.mem.length := (List.getElem?_eq_some_iff.mp hn).1
  refine ⟨p, n, hn, hnk, ht', ?_, ?_, ?_, ?_, ?_, ?_, ?_, ?_, ?_, ?_, ?_⟩
  · rw [ht']
  · rw [ht']
  · rw [ht']
  · rw [ht']
  · rw [ht']
    simp
  · intro x hx
    rw [ht']
    simp only
    rw [List.getElem?_set_ne (Ne.symm hx)]
  · rw [ht']
    simp only
    rw [List.getElem?_set]
    simp [hplt]
  · rw [spine_inv hinv', spine_inv hinv]
  · rw [spine_rev_inv hinv', spine_rev_inv hinv]
  · rw [bucket_chains_inv hinv', bucket_chains_inv hinv]
  · rw [keys_inv hinv', keys_inv hinv]
    congr 1
    refine List.map_congr_left ?_
    intro x hx
    obtain ⟨m, hm⟩ := seg_valid hinv.fwd x hx
    obtain ⟨m', hm'⟩ := seg_valid hinv'.fwd x hx
    rw [key_at_of_get hm, key_at_of_get hm']
    rw [ht'] at hm'
    simp only at hm'
    rw [List.getElem?_set] at hm'
    by_cases hpx : p = x
    · subst hpx
      rw [hn] at hm
      cases hm
      simp only [if_true, hplt] at hm'
      cases hm'
      rfl
    · rw [if_neg hpx, hm] at hm'
      cases hm'
      rfl

theorem reach_table4_k : Reach sum_index 4 table4_k [(cstr "k", cstr "v")] :=
  @Reach.set sum_index 4 table4 table4_k [] all_ok (some (cstr "k")) (some (cstr "v")) 1
    (reach_table4 sum_index) (by decide)

/-- Witness of C17: `set("k", "w")` on the container that holds the binding of `"k"` to
`"v"` changes the value of the entry 0 and nothing else. -/
theorem update_touches_only_value_witness :
    Reach sum_index 4 table4_k [(cstr "k", cstr "v")] ∧
    keys table4_k = some [cstr "k"] ∧ cstr "k" ∈ [cstr "k"] ∧
    shash_table_set sum_index all_ok (some table4_k) (some (cstr "k")) (some (cstr "w")) =
      some (1, some table4_kw) ∧ (1 : Int) ≠ 0 ∧
    ∃ p n, table4_k.mem[p]? = some n ∧ n.key = cstr "k" ∧
      table4_kw = { table4_k with mem := table4_k.mem.set p { n with value := cstr "w" } } ∧
      table4_kw.size = table4_k.size ∧ table4_kw.array = table4_k.array ∧
      table4_kw.shead = table4_k.shead ∧ table4_kw.stail = table4_k.stail ∧
      table4_kw.mem.length = table4_k.mem.length ∧
      (∀ x, x ≠ p → table4_kw.mem[x]? = table4_k.mem[x]?) ∧
      table4_kw.mem[p]? = some ⟨n.key, cstr "w", n.next, n.sprev, n.snext⟩ ∧
      spine table4_kw = spine table4_k ∧ spine_rev table4_kw = spine_rev table4_k ∧
      bucket_chains table4_kw = bucket_chains table4_k ∧ keys table4_kw = keys table4_k :=
  ⟨reach_table4_k, by decide, by decide, by decide, by decide,
    update_touches_only_value sum_index 4 table4_k table4_kw _ all_ok (cstr "k") (cstr "w") 1
      [cstr "k"] reach_table4_k (by decide) (by decide) (by decide) (by decide)⟩

/-! ## Emptiness, other keys and the range of the bucket index -/

theorem Inv.shead_none_iff {ki : CStr → Nat → Nat} {t : shash_table_t} {l : List Nat}
    {cs : List (List Nat)} {log : List (CStr × CStr)} (hinv : Inv ki t l cs log) :
    t.shead = none ↔ l = [] := by
  rw [seg_head hinv.fwd]
  cases l <;> simp

theorem Inv.stail_none_iff {ki : CStr → Nat → Nat} {t : shash_table_t} {l : List Nat}
    {cs : List (List Nat)} {log : List (CStr × CStr)} (hinv : Inv ki t l cs log) :
    t.stail = none ↔ l = [] := by
  rw [seg_head hinv.bwd]
  cases hl : l.reverse with
  | nil =>
    have : l = [] := by simpa using hl
    simp [this]
  | cons x xs =>
    have : l ≠ [] := by
      intro hc
      rw [hc] at hl
      simp at hl
    simp [this]

theorem Inv.buckets_none_iff {ki : CStr → Nat → Nat} {t : shash_table_t} {l : List Nat}
    {cs : List (List Nat)} {log : List (CStr × CStr)} (hinv : Inv ki t l cs log) :
    (∀ b ∈ t.array, b = none) ↔ l = [] := by
  have hl : l = [] ↔ cs.flatten = [] := by
    constructor
    · intro h
      exact List.Perm.eq_nil (h ▸ hinv.perm)
    · intro h
      exact List.Perm.eq_nil (h ▸ hinv.perm.symm)
  rw [hl, List.flatten_eq_nil_iff]
  constructor
  · intro h c hc
    obtain ⟨i, hi⟩ := List.getElem?_of_mem hc
    have hilt : i < t.array.length := by
      rw [← hinv.chains_len]
      exact (List.getElem?_eq_some_iff.mp hi).1
    have hb : t.array[i]? = some t.array[i] := List.getElem?_eq_getElem hilt
    have hseg := hinv.chain i _ c hb hi
    have hnone : t.array[i] = none := h _ (List.getElem?_mem hb)
    rw [hnone] at hseg
    cases c with
    | nil => rfl
    | cons x xs => exact absurd hseg.1 (by simp)
  · intro h b hb
    obtain ⟨i, hi⟩ := List.getElem?_of_mem hb
    have hilt : i < cs.length := by
      rw [hinv.chains_len]
      exact (List.getElem?_eq_some_iff.mp hi).1
    have hc : cs[i]? = some cs[i] := List.getElem?_eq_getElem hilt
    have hseg := hinv.chain i b _ hi hc
    rw [h _ (List.getElem?_mem hc)] at hseg
    exact hseg

/-- C18. Emptiness is consistent across both indexes: on a container returned by
`shash_table_create` or reached from it by calls of `shash_table_set`, `shead` is `NULL` if
and only if `stail` is `NULL`, if and only if every bucket head is `NULL`; a container
returned by `shash_table_create(size)` has `size` bucket heads, all `NULL`, and `shead` and
`stail` both `NULL`. -/
theorem emptiness_consistent (ki : CStr → Nat → Nat) (size : Nat) (t : shash_table_t)
    (log : List (CStr × CStr)) (hreach : Reach ki size t log) :
    (t.shead = none ↔ t.stail = none) ∧
    (t.stail = none ↔ ∀ b ∈ t.array, b = none) ∧
    ∀ (ok_ht ok_array : Bool) (t0 : shash_table_t),
      shash_table_create ok_ht ok_array size = some (some t0) →
      t0.array = List.replicate size none ∧ t0.array.length = size ∧
      t0.shead = none ∧ t0.stail = none := by
  obtain ⟨_, l, cs, hinv⟩ := reach_inv hreach
  refine ⟨?_, ?_, ?_⟩
  · rw [hinv.shead_none_iff, hinv.stail_none_iff]
  · rw [hinv.stail_none_iff, hinv.buckets_none_iff]
  · intro ok_ht ok_array t0 hc
    obtain ⟨ht0, _⟩ := create_inv ki hc
    subst ht0
    simp

/-- Witness of C18: the container made by `shash_table_create(4)` is empty in both indexes,
the container with one entry is empty in neither. -/
theorem emptiness_consistent_witness :
    Reach sum_index 4 table4_k [(cstr "k", cstr "v")] ∧
    ((table4_k.shead = none ↔ table4_k.stail = none) ∧
    (table4_k.stail = none ↔ ∀ b ∈ table4_k.array, b = none) ∧
    ∀ (ok_ht ok_array : Bool) (t0 : shash_table_t),
      shash_table_create ok_ht ok_array 4 = some (some t0) →
      t0.array = List.replicate 4 none ∧ t0.array.length = 4 ∧
      t0.shead = none ∧ t0.stail = none) ∧
    shash_table_create true true 4 = some (some table4) ∧
    table4.shead = none ∧ table4.stail = none ∧ table4.array = [none, none, none, none] ∧
    table4_k.shead = some 0 ∧ table4_k.stail = some 0 ∧
    table4_k.array = [none, none, none, some 0] :=
  ⟨reach_table4_k, emptiness_consistent sum_index 4 table4_k _ reach_table4_k,
    by decide, by decide, by decide, by decide, by decide, by decide, by decide⟩

theorem last_set_record_ne {log : List (CStr × CStr)} {k k₂ : CStr} (hne : k₂ ≠ k)
    (value : Option CStr) (r : Int) :
    last_set (record log (some k) value r) k₂ = last_set log k₂ := by
  cases value with
  | none => rfl
  | some v =>
    simp only [record]
    split
    · rfl
    · simp only [last_set]
      rw [if_neg (fun h => hne h.symm)]

/-- C19. Set does not disturb other keys: on a container reached from
`shash_table_create`, for every key `k`, value `v` and every key `k₂` other than `k`,
`shash_table_get(t, k₂)` returns, and returns the same result (the same value, or `NULL`),
after `shash_table_set(t, k, v)` as before it, whether the call inserted, updated or
failed. -/
theorem set_keeps_other_keys (ki : CStr → Nat → Nat) (size : Nat) (t t' : shash_table_t)
    (log : List (CStr × CStr)) (a : set_allocs) (k v k₂ : CStr) (r : Int)
    (hreach : Reach ki size t log)
    (hset : shash_table_set ki a (some t) (some k) (some v) = some (r, some t'))
    (hne : k₂ ≠ k) :
    ∃ res, shash_table_get ki (some t) (some k₂) = some res ∧
      shash_table_get ki (some t') (some k₂) = some res := by
  obtain ⟨_, l, cs, hinv⟩ := reach_inv hreach
  obtain ⟨t'', l', cs', ht, hinv', _, _, _⟩ := set_inv hinv hset
  cases ht
  by_cases hk₂ : k₂ = []
  · subst hk₂
    exact ⟨none, by simp [shash_table_get], by simp [shash_table_get]⟩
  · refine ⟨last_set log k₂, get_inv hinv hk₂, ?_⟩
    rw [get_inv hinv' hk₂, last_set_record_ne hne]

/-- Witness of C19: inserting `"j"` into the container that holds `"k"` leaves
`get("k") = "v"`. -/
theorem set_keeps_other_keys_witness :
    Reach sum_index 4 table4_k [(cstr "k", cstr "v")] ∧
    shash_table_set sum_index all_ok (some table4_k) (some (cstr "j")) (some (cstr "u")) =
      some (1, some table4_kj) ∧ cstr "k" ≠ cstr "j" ∧
    (∃ res, shash_table_get sum_index (some table4_k) (some (cstr "k")) = some res ∧
      shash_table_get sum_index (some table4_kj) (some (cstr "k")) = some res) ∧
    shash_table_get sum_index (some table4_kj) (some (cstr "k")) = some (some (cstr "v")) :=
  ⟨reach_table4_k, by decide, by decide,
    set_keeps_other_keys sum_index 4 table4_k table4_kj _ all_ok (cstr "j") (cstr "u")
      (cstr "k") 1 reach_table4_k (by decide) (by decide),
    by decide⟩

/-- With a bucket index in range, a call of `shash_table_set` returns, whatever the
outcome of its allocations. -/
theorem set_returns {ki : CStr → Nat → Nat} {t : shash_table_t} {l : List Nat}
    {cs : List (List Nat)} {log : List (CStr × CStr)} (hinv : Inv ki t l cs log)
    (hki : ∀ k, ki k t.size < t.size) (a : set_allocs) (key value : Option CStr) :
    ∃ r t', shash_table_set ki a (some t) key value = some (r, some t') := by
  cases key with
  | none => exact ⟨0, t, set_null_key ki a _ _⟩
  | some k =>
    cases value with
    | none => exact ⟨0, t, set_null_value ki a _ _⟩
    | some v =>
      by_cases hk : k = []
      · subst hk
        exact ⟨0, t, set_empty_key ki a _ _⟩
      · by_cases h1 : a.value_dup = false
        · exact ⟨0, t, set_value_dup_fail ki h1 _ _ _⟩
        · have h1' : a.value_dup = true := by simpa using h1
          cases hfind : l.find? (fun x => decide (key_at t.mem x = k)) with
          | some p =>
            obtain ⟨n, _, _, hs, _⟩ := set_update (v := v) hinv hk h1' hfind
            exact ⟨1, _, hs⟩
          | none =>
            have hfresh := find_none_of_fresh.mp hfind
            by_cases h23 : a.node = false ∨ a.key_dup = false
            · exact ⟨0, t, set_node_fail hinv hfresh h23 v⟩
            · have h2 : a.node = true := by
                cases hh : a.node
                · exact absurd (Or.inl hh) h23
                · rfl
              have h3 : a.key_dup = true := by
                cases hh : a.key_dup
                · exact absurd (Or.inr hh) h23
                · rfl
              have hjlt : ki k t.size < t.array.length := by
                rw [hinv.array_len]
                exact hki k
              obtain ⟨t', _, _, _, hs, _⟩ :=
                set_insert (v := v) hinv hk h1' h2 h3 hfresh (List.getElem?_eq_getElem hjlt)
              exact ⟨1, t', hs⟩

theorem get_returns {ki : CStr → Nat → Nat} {t : shash_table_t} {l : List Nat}
    {cs : List (List Nat)} {log : List (CStr × CStr)} (hinv : Inv ki t l cs log)
    (key : Option CStr) : ∃ res, shash_table_get ki (some t) key = some res := by
  cases key with
  | none => exact ⟨none, by simp [shash_table_get]⟩
  | some k =>
    by_cases hk : k = []
    · subst hk
      exact ⟨none, by simp [shash_table_get]⟩
    · exact ⟨_, get_inv hinv hk⟩

/-- C20. Bucket indexing is always in range: on a container reached from
`shash_table_create(size)` by calls of `shash_table_set`, with a `key_index` that maps
into `[0, size)` at this `size` (so `size > 0`), the index computed for any key is the
index of one of the `size` buckets, the guard `j >= size` of `shash_table_get` is false, and every call of
`shash_table_set` and of `shash_table_get` returns: the out-of-range branch is not taken. -/
theorem bucket_index_in_range (ki : CStr → Nat → Nat) (size : Nat) (t : shash_table_t)
    (log : List (CStr × CStr)) (hreach : Reach ki size t log)
    (hki : ∀ k, ki k size < size) :
    0 < size ∧ t.array.length = t.size ∧ t.size = size ∧
    (∀ k, ∃ b, t.array[ki k t.size]? = some b) ∧
    (∀ k, ¬ ki k t.size ≥ t.size) ∧
    (∀ (a : set_allocs) (key value : Option CStr),
      ∃ r t', shash_table_set ki a (some t) key value = some (r, some t')) ∧
    (∀ key : Option CStr, ∃ res, shash_table_get ki (some t) key = some res) := by
  obtain ⟨hsz, l, cs, hinv⟩ := reach_inv hreach
  have hk : ∀ k, ki k t.size < t.size := by
    intro k
    rw [hsz]
    exact hki k
  refine ⟨Nat.lt_of_le_of_lt (Nat.zero_le _) (hki []), hinv.array_len, hsz, ?_, ?_, ?_, ?_⟩
  · intro k
    have hlt : ki k t.size < t.array.length := by
      rw [hinv.array_len]
      exact hk k
    exact ⟨_, List.getElem?_eq_getElem hlt⟩
  · intro k
    have := hk k
    omega
  · intro a key value
    exact set_returns hinv hk a key value
  · intro key
    exact get_returns hinv key

/-- Witness of C20: the four-bucket container with `sum_index`. -/
theorem bucket_index_in_range_witness :
    Reach sum_index 4 table4_k [(cstr "k", cstr "v")] ∧
    (∀ k, sum_index k 4 < 4) ∧
    (0 < 4 ∧ table4_k.array.length = table4_k.size ∧ table4_k.size = 4 ∧
    (∀ k, ∃ b, table4_k.array[sum_index k table4_k.size]? = some b) ∧
    (∀ k, ¬ sum_index k table4_k.size ≥ table4_k.size) ∧
    (∀ (a : set_allocs) (key value : Option CStr),
      ∃ r t', shash_table_set sum_index a (some table4_k) key value = some (r, some t')) ∧
    (∀ key : Option CStr, ∃ res, shash_table_get sum_index (some table4_k) key = some res)) :=
  have hki : ∀ k, sum_index k 4 < 4 := fun k => Nat.mod_lt _ (by decide)
  ⟨reach_table4_k, hki, bucket_index_in_range sum_index 4 table4_k _ reach_table4_k hki⟩

/-! ## Spine lookup and bucket lookup -/

theorem chain_find_seg {mem : List shash_node_t} {key : CStr} :
    ∀ {l : List Nat} {p : Option Nat} {fuel : Nat},
      Seg shash_node_t.next mem p l none → l.length ≤ fuel →
      chain_find mem key fuel p = some (l.find? (fun x => decide (key_at mem x = key)))
  | [], p, fuel, h, _ => by
    have : p = none := h
    subst this
    cases fuel <;> rfl
  | x :: xs, p, fuel, h, hf => by
    obtain ⟨hp, n, hn, hrest⟩ := h
    subst hp
    cases fuel with
    | zero => simp at hf
    | succ f =>
      have hlen : xs.length ≤ f := by simpa using hf
      simp only [chain_find, hn, List.find?_cons, key_at_of_get hn, strcmp_eq_zero_iff]
      by_cases hk : n.key = key
      · simp [hk]
      · simp only [hk, if_false, decide_False]
        exact chain_find_seg hrest hlen

theorem Inv.chain_length_le {ki : CStr → Nat → Nat} {t : shash_table_t} {l : List Nat}
    {cs : List (List Nat)} {log : List (CStr × CStr)} (hinv : Inv ki t l cs log)
    {i : Nat} {c : List Nat} (hc : cs[i]? = some c) : c.length ≤ t.mem.length := by
  have hsub : c.Sublist cs.flatten := List.sublist_flatten_of_mem (List.getElem?_mem hc)
  calc c.length ≤ cs.flatten.length := hsub.length_le
    _ = l.length := hinv.perm.length_eq
    _ ≤ t.mem.length := hinv.length_le

theorem Inv.chain_subset {ki : CStr → Nat → Nat} {t : shash_table_t} {l : List Nat}
    {cs : List (List Nat)} {log : List (CStr × CStr)} (hinv : Inv ki t l cs log)
    {i : Nat} {c : List Nat} (hc : cs[i]? = some c) : ∀ x ∈ c, x ∈ l :=
  fun _ hx => hinv.perm.subset (List.mem_flatten.mpr ⟨c, List.getElem?_mem hc, hx⟩)

/-- Under the invariant the lookup through the bucket index returns the value of the
latest successful `set` on the key. -/
theorem bucket_lookup_inv {ki : CStr → Nat → Nat} {t : shash_table_t} {l : List Nat}
    {cs : List (List Nat)} {log : List (CStr × CStr)} (hinv : Inv ki t l cs log)
    {k : CStr} (hj : ki k t.size < t.size) :
    bucket_lookup ki t k = some (last_set log k) := by
  have hjlt : ki k t.size < t.array.length := by
    rw [hinv.array_len]
    exact hj
  have hjlt' : ki k t.size < cs.length := by
    rw [hinv.chains_len]
    exact hjlt
  have hb : t.array[ki k t.size]? = some t.array[ki k t.size] := List.getElem?_eq_getElem hjlt
  have hc : cs[ki k t.size]? = some cs[ki k t.size] := List.getElem?_eq_getElem hjlt'
  have hseg := hinv.chain _ _ _ hb hc
  have hfind := @chain_find_seg t.mem k _ _ _ hseg (hinv.chain_length_le hc)
  cases hf : (cs[ki k t.size]).find? (fun x => decide (key_at t.mem x = k)) with
  | none =>
    rw [hf] at hfind
    have hlast : last_set log k = none := by
      cases hl : last_set log k with
      | none => rfl
      | some v =>
        obtain ⟨x, n, hx, hn, hnk, _⟩ := hinv.mem_of_last_set hl
        have hxk : key_at t.mem x = k := by rw [key_at_of_get hn, hnk]
        obtain ⟨c, hcm, hxc⟩ := List.mem_flatten.mp (hinv.perm.symm.subset hx)
        obtain ⟨i, hi⟩ := List.getElem?_of_mem hcm
        have hij : i = ki k t.size := by
          rw [← hinv.placed i c hi x hxc, hxk]
        subst hij
        rw [hc] at hi
        cases hi
        have := List.find?_eq_none.mp hf x hxc
        simp [hxk] at this
    rw [hlast]
    simp only [bucket_lookup, hb, hfind]
  | some p =>
    rw [hf] at hfind
    have hpc : p ∈ cs[ki k t.size] := List.mem_of_find?_eq_some hf
    have hpk : key_at t.mem p = k := by simpa using List.find?_some hf
    have hpl : p ∈ l := hinv.chain_subset hc p hpc
    obtain ⟨n, hn⟩ := seg_valid hinv.fwd p hpl
    have hmem : (k, n.value) ∈ l.map (entry_at t.mem) := by
      refine List.mem_map.mpr ⟨p, hpl, ?_⟩
      rw [entry_at_of_get hn, ← hpk, key_at_of_get hn]
    rw [(hinv.model k n.value).mp hmem]
    simp only [bucket_lookup, hb, hfind, hn]

/-- C16. Spine lookup equals bucket lookup: on a container reached from
`shash_table_create(size)` by calls of `shash_table_set`, for a non-empty key whose
`key_index` is the index of a bucket (the contract of `key_index`, which needs `size > 0`),
`shash_table_get`, which searches the spine from `shead`, returns what the search of the
chain of bucket `key_index(key, size)` alone returns. -/
theorem get_eq_bucket_lookup (ki : CStr → Nat → Nat) (size : Nat) (t : shash_table_t)
    (log : List (CStr × CStr)) (k : CStr) (hreach : Reach ki size t log) (hk : k ≠ [])
    (hj : ki k size < size) :
    ∃ res, shash_table_get ki (some t) (some k) = some res ∧
      bucket_lookup ki t k = some res := by
  obtain ⟨hsz, l, cs, hinv⟩ := reach_inv hreach
  exact ⟨last_set log k, get_inv hinv hk, bucket_lookup_inv hinv (by rw [hsz]; exact hj)⟩

/-- Witness of C16: with every key in bucket 0, both lookups find `"b"` and both miss
`"d"`. -/
theorem get_eq_bucket_lookup_witness :
    Reach zero_index 4 table_cab (cab.reverse ++ []) ∧ cstr "b" ≠ [] ∧
    zero_index (cstr "b") 4 < 4 ∧
    (∃ res, shash_table_get zero_index (some table_cab) (some (cstr "b")) = some res ∧
      bucket_lookup zero_index table_cab (cstr "b") = some res) ∧
    bucket_lookup zero_index table_cab (cstr "b") = some (some (cstr "2")) ∧
    shash_table_get zero_index (some table_cab) (some (cstr "d")) = some none ∧
    bucket_lookup zero_index table_cab (cstr "d") = some none :=
  ⟨reach_table_cab, by decide, by decide,
    get_eq_bucket_lookup zero_index 4 table_cab _ (cstr "b") reach_table_cab (by decide)
      (by decide),
    by decide, by decide, by decide⟩

end SortedHash
